import Mathlib

/-!
Verification development for the `simple-codegen` Rust crate.

The crate builds an in-memory tree of Rust declarations (structs, enums,
traits, functions, modules, impl blocks, ...) and renders it to a single
formatted text document.  This file gives a shallow embedding of the
rendering engine and of the scope/import bookkeeping, translated from the
crate's sources (`src/scope.rs`, `src/block.rs`, `src/function.rs`, ...).

Strings are modelled as `List Char`.  The crate's `Formatter` (an
indentation-tracking text sink) only ever appends text to its buffer, and
its decisions depend only on the indent level and on whether the cursor is
at the start of a line.  We therefore embed every `fmt` method as a
function taking the current indent level and an "at start of line" flag
and returning the text it appends; the Rust buffer after a call is the
buffer before the call concatenated with the returned text.  Fallible
renderers (those whose Rust counterparts can `panic!` / `assert!`) return
`Option`, with `none` marking the panic.

The file `src/formatter.rs` itself (declared in `lib.rs`) is not part of
the sources available here, so `Formatter.write`, `Formatter` blocks and
the helpers `fmt_generics`, `fmt_bounds`, `fmt_bound_rhs` are modelled
from the specification (its §3 and §4.1) and pinned by the crate's own
test suite (`tests/scope.rs`, `tests/function.rs`, `tests/trait.rs`);
these definitions carry a `Modelled from the spec` note.
-/

namespace SimpleCodegen

/-- Converts a Lean string literal to the `List Char` representation used
throughout this development. -/
def chars (s : String) : List Char := s.data

/-- Modelled from the spec: the number of spaces per indent level
(`INDENT_WIDTH = 4`, spec §3). -/
def INDENT_WIDTH : Nat := 4

/-- Modelled from the spec: the indentation text emitted at indent level
`n`, namely `INDENT_WIDTH * n` spaces. -/
def indentOf (n : Nat) : List Char := List.replicate (INDENT_WIDTH * n) ' '

/-- Line-start tracking: `stAfter st t` is whether the cursor is at the
start of a line after appending `t` to a buffer whose line-start status
was `st`.  Matches the spec's invariant that `at_line_start` holds exactly
when the buffer is empty or ends in a newline. -/
def stAfter (st : Bool) (t : List Char) : Bool :=
  match t.getLast? with
  | none => st
  | some c => c == '\n'

/-- Modelled from the spec (§4.1, missing `src/formatter.rs`): the
`Formatter` write primitive.  Appends the text verbatim except that the
indentation prefix is emitted before the first character of every line
begun while the indent level is positive; blank lines (a newline written
at the start of a line) are not indented, as pinned by the crate's tests
(`tests/scope.rs::get_or_new_module` shows an unindented blank line inside
a module). -/
def Formatter.write (ind : Nat) : Bool → List Char → List Char
  | _, [] => []
  | st, c :: cs =>
      (if st && !(ind == 0) && !(c == '\n') then indentOf ind else [])
        ++ c :: Formatter.write ind (c == '\n') cs

/-- Writer action: given the line-start flag, the text this step appends. -/
abbrev W := Bool → List Char

/-- Fallible writer action (`none` models a Rust `panic!`/`assert!`). -/
abbrev OW := Bool → Option (List Char)

/-- Writer action that appends nothing. -/
def emptyW : W := fun _ => []

/-- Writer action for a single `write!` of fixed text. -/
def emit (ind : Nat) (t : List Char) : W := fun st => Formatter.write ind st t

/-- Sequencing of two writer actions, threading the line-start flag. -/
def seqW (a b : W) : W := fun st =>
  let t := a st
  t ++ b (stAfter st t)

/-- Sequencing of a list of writer actions (a `for` loop of writes). -/
def seqList (ws : List W) : W := ws.foldr seqW emptyW

/-- Writes the given actions separated by a separator action; this is the
`for (i, x) in xs.enumerate { if i != 0 { write sep } ... }` pattern. -/
def joinW (sep : W) (ws : List W) : W := seqList (ws.intersperse sep)

/-- Lifts an infallible writer action to a fallible one. -/
def liftW (a : W) : OW := fun st => some (a st)

/-- Sequencing of two fallible writer actions. -/
def seqOW (a b : OW) : OW := fun st =>
  (a st).bind fun t => (b (stAfter st t)).map fun t2 => t ++ t2

/-- Sequencing of an infallible and a fallible writer action. -/
def seqWO (a : W) (b : OW) : OW := seqOW (liftW a) b

/-- Sequencing of a list of fallible writer actions. -/
def seqListO (ws : List OW) : OW := ws.foldr seqOW (liftW emptyW)

/-- Modelled from the spec (§4.1, missing `src/formatter.rs`):
`Formatter::block` for an infallible body.  If the cursor is not at the
start of a line a single space is written so `{` attaches to the preceding
token; then `{`, a newline, the body at an incremented indent level, and
the closing `}` followed by a newline.  The trailing newline after `}` is
pinned by the crate's tests (`tests/function.rs::function_basic`,
`tests/scope.rs::two_structs`). -/
def Formatter.block (ind : Nat) (body : Nat → W) : W := fun st =>
  let t0 := if !st then Formatter.write ind st [' '] else []
  let st0 := stAfter st t0
  let t1 := Formatter.write ind st0 (chars "\x7b\n")
  let st1 := stAfter st0 t1
  let t2 := body (ind + 1) st1
  let st2 := stAfter st1 t2
  let t3 := Formatter.write ind st2 (chars "\x7d\n")
  t0 ++ t1 ++ t2 ++ t3

/-- Modelled from the spec (§4.1, missing `src/formatter.rs`):
`Formatter::block` for a body that may panic. -/
def Formatter.blockO (ind : Nat) (body : Nat → OW) : OW := fun st =>
  let t0 := if !st then Formatter.write ind st [' '] else []
  let st0 := stAfter st t0
  let t1 := Formatter.write ind st0 (chars "\x7b\n")
  let st1 := stAfter st0 t1
  (body (ind + 1) st1).map fun t2 =>
    let st2 := stAfter st1 t2
    let t3 := Formatter.write ind st2 (chars "\x7d\n")
    t0 ++ t1 ++ t2 ++ t3

/-- Visibility of an item (`src/visibility.rs`, enum `Vis`). -/
inductive Vis where
  | Private
  | Pub
  | PubCrate
  | PubSelf
  | PubSuper
  | Custom (s : List Char)
deriving DecidableEq

/-- Rendering of a visibility (`src/visibility.rs`, `Vis::fmt`): the
prefix written before `use` / `fn` / etc., empty for `Private`. -/
def Vis.fmt (v : Vis) (ind : Nat) : W :=
  match v with
  | .Private => emptyW
  | .Pub => emit ind (chars "pub ")
  | .PubCrate => emit ind (chars "pub(crate) ")
  | .PubSelf => emit ind (chars "pub(self) ")
  | .PubSuper => emit ind (chars "pub(super) ")
  | .Custom s => seqW (emit ind s) (emit ind [' '])

/-- Specification-side text of a visibility prefix (spec §4.2
"visibility-prefix"); used to state the import-consolidation claim. -/
def visText : Vis → List Char
  | .Private => []
  | .Pub => chars "pub "
  | .PubCrate => chars "pub(crate) "
  | .PubSelf => chars "pub(self) "
  | .PubSuper => chars "pub(super) "
  | .Custom s => s ++ [' ']

/-- Splits a character list at every newline; the result has one chunk
more than the number of newlines. -/
def splitNl : List Char → List (List Char)
  | [] => [[]]
  | c :: rest =>
      if c == '\n' then [] :: splitNl rest
      else
        match splitNl rest with
        | [] => [[c]]
        | l :: ls => (c :: l) :: ls

/-- Drops a single trailing carriage return, as Rust's `str::lines` does
for every produced line. -/
def stripCR (l : List Char) : List Char :=
  if l.getLast? == some '\r' then l.dropLast else l

/-- Model of Rust's `str::lines()`: split at `\n`, drop the final empty
chunk produced by a trailing newline, strip one trailing `\r` per line. -/
def rustLines (s : List Char) : List (List Char) :=
  let parts := splitNl s
  let parts := if parts.getLast? == some ([] : List Char) then parts.dropLast else parts
  parts.map stripCR

/-- Documentation attached to a scope or item (`src/doc.rs`, `Doc`). -/
structure Doc where
  text : List Char
deriving DecidableEq

/-- Rendering of documentation (`src/doc.rs`, `Doc::fmt`): each line of
the text becomes `/// <line>`, with the space omitted for empty lines. -/
def Doc.fmt (d : Doc) (ind : Nat) : W :=
  seqList ((rustLines d.text).map fun l =>
    seqW (emit ind (chars "///"))
      (seqW (if l.isEmpty then emptyW else seqW (emit ind [' ']) (emit ind l))
        (emit ind (chars "\n"))))

/-- Lint attributes (`src/lint.rs`, enum `Lint`). -/
inductive Lint where
  | Allow (l : List Char)
  | Expect (l : List Char)
  | Warn (l : List Char)
  | ForceWarn (l : List Char)
  | Deny (l : List Char)
  | Forbid (l : List Char)
deriving DecidableEq

/-- Rendering of a lint attribute (`src/lint.rs`, `Lint::fmt`). -/
def Lint.fmt (l : Lint) (ind : Nat) : W :=
  match l with
  | .Allow s => emit ind (chars "#[allow(" ++ s ++ chars ")]\n")
  | .Expect s => emit ind (chars "#[expect(" ++ s ++ chars ")]\n")
  | .Warn s => emit ind (chars "#[warn(" ++ s ++ chars ")]\n")
  | .ForceWarn s => emit ind (chars "#[force-warn(" ++ s ++ chars ")]\n")
  | .Deny s => emit ind (chars "#[deny(" ++ s ++ chars ")]\n")
  | .Forbid s => emit ind (chars "#[forbid(" ++ s ++ chars ")]\n")

/-- A generic parameter with optional inline trait bounds
(`src/generic_parameter.rs`, `GenericParameter`). -/
structure GenericParameter where
  name : List Char
  traits : List (List Char)
deriving DecidableEq

/-- Rendering of a generic parameter (`src/generic_parameter.rs`,
`GenericParameter::fmt`). -/
def GenericParameter.fmt (g : GenericParameter) (ind : Nat) : W :=
  seqW (emit ind g.name)
    (if g.traits.isEmpty then emptyW
     else seqW (emit ind (chars ": "))
            (joinW (emit ind (chars " + ")) (g.traits.map (emit ind))))

/-- A type reference (`src/type.rs`, struct `Type`; named `Ty` here since
`Type` is a Lean keyword). -/
structure Ty where
  name : List Char
  generics : List GenericParameter
deriving DecidableEq

/-- Rendering of a generics list (`src/type.rs`, `Type::fmt_slice`). -/
def Ty.fmt_slice (generics : List GenericParameter) (ind : Nat) : W :=
  if generics.isEmpty then emptyW
  else seqW (emit ind ['<'])
        (seqW (joinW (emit ind (chars ", ")) (generics.map (GenericParameter.fmt · ind)))
          (emit ind ['>']))

/-- Rendering of a type (`src/type.rs`, `Type::fmt`). -/
def Ty.fmt (t : Ty) (ind : Nat) : W :=
  seqW (emit ind t.name) (Ty.fmt_slice t.generics ind)

/-- Creates a type from a plain name (`src/type.rs`, `Type::new`). -/
def Ty.new (name : List Char) : Ty := ⟨name, []⟩

/-- A `where`-clause bound (`src/bound.rs`, `Bound`). -/
structure Bound where
  name : List Char
  traits : List (List Char)
deriving DecidableEq

/-- Modelled from the spec (missing `src/formatter.rs`): `fmt_generics`,
the rendering of a plain generics list as `<a, b, c>`, nothing when
empty.  Pinned by `tests/function.rs::function_with_generics_and_bounds`
(`async fn test_fn<T>() -> T`). -/
def fmt_generics (generics : List (List Char)) (ind : Nat) : W :=
  if generics.isEmpty then emptyW
  else seqW (emit ind ['<'])
        (seqW (joinW (emit ind (chars ", ")) (generics.map (emit ind)))
          (emit ind ['>']))

/-- Modelled from the spec (missing `src/formatter.rs`): `fmt_bound_rhs`,
the right-hand side of a bound, traits joined by ` + `.  Pinned by
`tests/trait.rs::trait_with_associated_types` (`type Item: Copy;`). -/
def fmt_bound_rhs (tys : List (List Char)) (ind : Nat) : W :=
  joinW (emit ind (chars " + ")) (tys.map (emit ind))

/-- Modelled from the spec (missing `src/formatter.rs`): `fmt_bounds`,
the rendering of a `where` clause: nothing when there are no bounds,
otherwise a newline followed by one `where <name>: <traits>,` line per
bound.  Pinned by `tests/function.rs::function_with_generics_and_bounds`
and `tests/trait.rs::trait_with_invalid_bounds` (`where T: Clone,` on its
own line before the opening brace). -/
def fmt_bounds (bounds : List Bound) (ind : Nat) : W :=
  if bounds.isEmpty then emptyW
  else seqW (emit ind (chars "\n"))
        (seqList (bounds.map fun b =>
          seqW (emit ind (chars "where " ++ b.name ++ chars ": "))
            (seqW (fmt_bound_rhs b.traits ind) (emit ind (chars ",\n")))))

/-- An import record (`src/import.rs`, `Import`): the stored `use` line
and the visibility of the statement. -/
structure Import where
  line : List Char
  vis : Vis
deriving DecidableEq

/-- Creates a new import (`src/import.rs`, `Import::new`); the stored
line is `<path>::<ty>` and the visibility starts out `Private`. -/
def Import.new (path ty : List Char) : Import :=
  ⟨path ++ chars "::" ++ ty, .Private⟩

/-- Sets the import visibility (`src/import.rs`, `Import::with_vis`). -/
def Import.with_vis (i : Import) (v : Vis) : Import := { i with vis := v }

/-- The scope's import table (`src/scope.rs`, field `imports`):
`IndexMap<String, IndexMap<String, Import>>`, embedded as insertion-
ordered association lists at both levels. -/
abbrev ImportTable := List (List Char × List (List Char × Import))

/-- Association-list lookup keeping the first match, mirroring
`IndexMap` lookup. -/
def lookupTbl {α : Type} (m : List (List Char × α)) (k : List Char) : Option α :=
  match m with
  | [] => none
  | e :: rest => if e.1 == k then some e.2 else lookupTbl rest k

/-- The inner `entry(ty).or_insert_with(...)` step of `push_import`: an
absent key is appended at the end, a present key leaves the map
untouched (first write wins). -/
def innerInsert (m : List (List Char × Import)) (ty : List Char) (imp : Import) :
    List (List Char × Import) :=
  match m with
  | [] => [(ty, imp)]
  | e :: rest => if e.1 == ty then e :: rest else e :: innerInsert rest ty imp

/-- The outer `entry(path).or_default()` step of `push_import` combined
with the inner insertion: a missing path gets a fresh singleton inner
map appended at the end; an existing path's inner map is updated in
place. -/
def tableInsert (tbl : ImportTable) (path ty : List Char) (imp : Import) : ImportTable :=
  match tbl with
  | [] => [(path, [(ty, imp)])]
  | e :: rest =>
      if e.1 == path then (e.1, innerInsert e.2 ty imp) :: rest
      else e :: tableInsert rest path ty imp

/-- Takes the first `::`-separated segment of an imported name
(`src/scope.rs` line 135: `ty.split("::").next().unwrap_or(ty)`). -/
def firstSeg : List Char → List Char
  | ':' :: ':' :: _ => []
  | c :: rest => c :: firstSeg rest
  | [] => []

/-! Code body lines and nested blocks (`src/body.rs`, enum `Body`, and
`src/block.rs`, struct `Block`). -/

mutual

inductive Body where
  | str (s : List Char) : Body
  | block (b : Block) : Body

inductive Block where
  | mk (body : List Body) : Block

end

/-- The body list of a block (`src/block.rs`, `Block::body`). -/
def Block.body : Block → List Body
  | .mk b => b

mutual

/-- Rendering of a code block (`src/block.rs`, `Block::fmt`): a space
when not at the start of a line, `{`, newline, the body one level
deeper, then `}` and a newline. -/
def Block.fmt (b : Block) (ind : Nat) (st : Bool) : List Char :=
  match b with
  | .mk body =>
    let t0 := if !st then Formatter.write ind st [' '] else []
    let st0 := stAfter st t0
    let t1 := Formatter.write ind st0 (chars "\x7b\n")
    let st1 := stAfter st0 t1
    let t2 := Body.fmtList body (ind + 1) st1
    let st2 := stAfter st1 t2
    let t3 := Formatter.write ind st2 ['}']
    let st3 := stAfter st2 t3
    let t4 := Formatter.write ind st3 ['\n']
    t0 ++ t1 ++ t2 ++ t3 ++ t4

/-- Rendering of one body element (`src/body.rs`, `Body::fmt`): a string
becomes a line, a nested block is rendered recursively. -/
def Body.fmt (b : Body) (ind : Nat) (st : Bool) : List Char :=
  match b with
  | .str s => Formatter.write ind st (s ++ ['\n'])
  | .block b => Block.fmt b ind st

/-- Rendering of a body list (the `for b in &self.body` loops of
`src/block.rs` and `src/function.rs`). -/
def Body.fmtList : List Body → Nat → Bool → List Char
  | [], _, _ => []
  | b :: rest, ind, st =>
      let t := Body.fmt b ind st
      t ++ Body.fmtList rest ind (stAfter st t)

end

/-- A struct field (`src/field.rs`, `Field`); also used for function
arguments. -/
structure Field where
  name : List Char
  ty : Ty
  doc : Option Doc
  annotations : List (List Char)
  value : List Char
  vis : Vis
deriving DecidableEq

/-- Creates a field definition (`src/field.rs`, `Field::new`). -/
def Field.new (name : List Char) (ty : Ty) : Field :=
  ⟨name, ty, none, [], [], .Private⟩

/-- The field list of a struct or variant (`src/fields.rs`, enum
`Fields`). -/
inductive Fields where
  | Empty
  | Tuple (tys : List Ty)
  | Named (fields : List Field)
deriving DecidableEq

/-- Rendering of a field list (`src/fields.rs`, `Fields::fmt`).  Named
fields render inside a block, one `name: ty,` line per field preceded by
its doc lines and annotations; tuple fields render as `(a, b)`.  The
Rust code asserts that a `Named`/`Tuple` list is non-empty; the assert
failure is modelled by `none`. -/
def Fields.fmt (fs : Fields) (ind : Nat) : OW := fun st =>
  match fs with
  | .Named fields =>
      if fields.isEmpty then none
      else some (Formatter.block ind (fun ind' =>
        seqList (fields.map fun f =>
          seqW (match f.doc with
                | some doc => seqList ((rustLines doc.text).map fun l =>
                    emit ind' (chars "/// " ++ l ++ chars "\n"))
                | none => emptyW)
            (seqW (seqList (f.annotations.map fun ann => emit ind' (ann ++ chars "\n")))
              (seqW (Vis.fmt f.vis ind')
                (seqW (emit ind' (f.name ++ chars ": "))
                  (seqW (Ty.fmt f.ty ind') (emit ind' (chars ",\n")))))))) st)
  | .Tuple tys =>
      if tys.isEmpty then none
      else some ((seqW (emit ind ['('])
        (seqW (joinW (emit ind (chars ", ")) (tys.map (Ty.fmt · ind)))
          (emit ind [')']))) st)
  | .Empty => some []

/-- The shared head of a type definition (`src/type_def.rs`, `TypeDef`). -/
structure TypeDef where
  ty : Ty
  vis : Vis
  doc : Option Doc
  derives : List (List Char)
  lints : List Lint
  attributes : List (List Char)
  repr : Option (List Char)
  bounds : List Bound
  macros : List (List Char)
deriving DecidableEq

/-- Creates a type definition (`src/type_def.rs`, `TypeDef::new`). -/
def TypeDef.new (name : List Char) : TypeDef :=
  ⟨Ty.new name, .Private, none, [], [], [], none, [], []⟩

/-- Lint lines of a type definition (`src/type_def.rs`,
`TypeDef::fmt_lints`). -/
def TypeDef.fmt_lints (td : TypeDef) (ind : Nat) : W :=
  seqList (td.lints.map (Lint.fmt · ind))

/-- Derive attribute of a type definition (`src/type_def.rs`,
`TypeDef::fmt_derive`). -/
def TypeDef.fmt_derive (td : TypeDef) (ind : Nat) : W :=
  if td.derives.isEmpty then emptyW
  else seqW (emit ind (chars "#[derive("))
        (seqW (joinW (emit ind (chars ", ")) (td.derives.map (emit ind)))
          (emit ind (chars ")]\n")))

/-- Repr attribute of a type definition (`src/type_def.rs`,
`TypeDef::fmt_repr`). -/
def TypeDef.fmt_repr (td : TypeDef) (ind : Nat) : W :=
  match td.repr with
  | some r => emit ind (chars "#[repr(" ++ r ++ chars ")]\n")
  | none => emptyW

/-- Attribute lines of a type definition (`src/type_def.rs`,
`TypeDef::fmt_attributes`). -/
def TypeDef.fmt_attributes (td : TypeDef) (ind : Nat) : W :=
  seqList (td.attributes.map fun attr => emit ind (chars "#[" ++ attr ++ chars "]\n"))

/-- Macro lines of a type definition (`src/type_def.rs`,
`TypeDef::fmt_macros`). -/
def TypeDef.fmt_macros (td : TypeDef) (ind : Nat) : W :=
  seqList (td.macros.map fun m => emit ind (m ++ chars "\n"))

/-- Head of a type definition (`src/type_def.rs`, `TypeDef::fmt_head`):
doc, lints, derives, repr, attributes, macros, visibility, the keyword
and the type, optional `: Parent1 + Parent2` parents, then the `where`
bounds. -/
def TypeDef.fmt_head (td : TypeDef) (keyword : List Char) (parents : List Ty)
    (ind : Nat) : W :=
  seqW (match td.doc with | some d => Doc.fmt d ind | none => emptyW)
    (seqW (td.fmt_lints ind)
      (seqW (td.fmt_derive ind)
        (seqW (td.fmt_repr ind)
          (seqW (td.fmt_attributes ind)
            (seqW (td.fmt_macros ind)
              (seqW (Vis.fmt td.vis ind)
                (seqW (emit ind (keyword ++ [' ']))
                  (seqW (Ty.fmt td.ty ind)
                    (seqW (if parents.isEmpty then emptyW
                           else seqList (parents.enum.map fun (i, ty) =>
                             seqW (emit ind (if i == 0 then chars ": " else chars " + "))
                               (Ty.fmt ty ind)))
                      (fmt_bounds td.bounds ind))))))))))

/-- A struct definition (`src/struct.rs`, `Struct`). -/
structure Struct where
  type_def : TypeDef
  fields : Fields
deriving DecidableEq

/-- Rendering of a struct (`src/struct.rs`, `Struct::fmt`): the head,
the fields, and a terminating `;` for unit and tuple structs. -/
def Struct.fmt (s : Struct) (ind : Nat) : OW :=
  seqWO (s.type_def.fmt_head (chars "struct") [] ind)
    (seqOW (s.fields.fmt ind)
      (liftW (match s.fields with
              | .Empty => emit ind (chars ";\n")
              | .Tuple _ => emit ind (chars ";\n")
              | _ => emptyW)))

/-- An enum variant (`src/variant.rs`, `Variant`). -/
structure Variant where
  name : List Char
  fields : Fields
  annotations : List (List Char)
deriving DecidableEq

/-- Rendering of a variant (`src/variant.rs`, `Variant::fmt`):
annotations, the name, the fields, then `,` and a newline. -/
def Variant.fmt (v : Variant) (ind : Nat) : OW :=
  seqWO (seqList (v.annotations.map fun a =>
      seqW (emit ind a) (emit ind (chars "\n"))))
    (seqWO (emit ind v.name)
      (seqOW (v.fields.fmt ind)
        (liftW (emit ind (chars ",\n")))))

/-- An enum definition (`src/enum.rs`, `Enum`). -/
structure Enum where
  type_def : TypeDef
  variants : List Variant
deriving DecidableEq

/-- Rendering of an enum (`src/enum.rs`, `Enum::fmt`): the head followed
by a block of variants. -/
def Enum.fmt (e : Enum) (ind : Nat) : OW :=
  seqWO (e.type_def.fmt_head (chars "enum") [] ind)
    (Formatter.blockO ind (fun ind' =>
      seqListO (e.variants.map fun v => Variant.fmt v ind')))

/-- An associated constant (`src/associated_const.rs`,
`AssociatedConst`). -/
structure AssociatedConst where
  name : List Char
  ty : List Char
  generics : List GenericParameter
  concrete_vis : Vis
  concrete_value : Option (List Char)
deriving DecidableEq

/-- An associated type (`src/associated_type.rs`, `AssociatedType`): a
bound (name plus trait bounds) and an optional concrete type for impl
blocks. -/
structure AssociatedType where
  ty : Bound
  concrete_ty : Option (List Char × List (List Char))
deriving DecidableEq

/-- The name of an associated type (`src/associated_type.rs`,
`AssociatedType::name`). -/
def AssociatedType.name (a : AssociatedType) : List Char := a.ty.name

/-- The trait bounds of an associated type (`src/associated_type.rs`,
`AssociatedType::trait_bounds`). -/
def AssociatedType.trait_bounds (a : AssociatedType) : List (List Char) := a.ty.traits

/-- Whether a function takes `self` (`src/function.rs`, enum `SelfArg`). -/
inductive SelfArg where
  | None
  | WithSelf
  | WithSelfRef
  | WithMutSelf
  | WithMutSelfRef
deriving DecidableEq

/-- Rendering of the self argument (`src/function.rs`, the
`match self.self_arg` arm of `Function::fmt`). -/
def SelfArg.fmt (sa : SelfArg) (ind : Nat) : W :=
  match sa with
  | .None => emptyW
  | .WithSelf => emit ind (chars "self")
  | .WithSelfRef => emit ind (chars "&self")
  | .WithMutSelf => emit ind (chars "mut self")
  | .WithMutSelfRef => emit ind (chars "&mut self")

/-- A function definition (`src/function.rs`, `Function`). -/
structure Function where
  name : List Char
  doc : Option Doc
  lints : List Lint
  vis : Vis
  isAsync : Bool
  generics : List (List Char)
  self_arg : SelfArg
  args : List Field
  ret : Option Ty
  bounds : List Bound
  body : List Body
  attributes : List (List Char)
  extern_abi : Option (List Char)

/-- Creates a function definition (`src/function.rs`, `Function::new`). -/
def Function.new (name : List Char) : Function :=
  ⟨name, none, [], .Private, false, [], .None, [], none, [], [], [], none⟩

/-- The doc, lint and attribute lines preceding a function signature
(`src/function.rs`, `Function::fmt` lines 494-504). -/
def Function.fmtPre (f : Function) (ind : Nat) : W :=
  seqW (match f.doc with | some d => Doc.fmt d ind | none => emptyW)
    (seqW (seqList (f.lints.map (Lint.fmt · ind)))
      (seqList (f.attributes.map fun attr => emit ind (chars "#[" ++ attr ++ chars "]\n"))))

/-- The function signature after the visibility prefix
(`src/function.rs`, `Function::fmt` lines 515-560): extern ABI, `async`,
`fn name`, generics, the parenthesised self/argument list, the return
type and the `where` bounds. -/
def Function.fmtCore (f : Function) (ind : Nat) : W :=
  seqW (match f.extern_abi with
        | some abi => emit ind (chars "extern \x22" ++ abi ++ chars "\x22 ")
        | none => emptyW)
    (seqW (if f.isAsync then emit ind (chars "async ") else emptyW)
      (seqW (emit ind (chars "fn " ++ f.name))
        (seqW (fmt_generics f.generics ind)
          (seqW (emit ind ['('])
            (seqW (SelfArg.fmt f.self_arg ind)
              (seqW (seqList (f.args.enum.map fun (i, arg) =>
                  seqW (if i != 0 || f.self_arg != SelfArg.None
                        then emit ind (chars ", ") else emptyW)
                    (seqW (emit ind (arg.name ++ chars ": ")) (Ty.fmt arg.ty ind))))
                (seqW (emit ind [')'])
                  (seqW (match f.ret with
                         | some ret => seqW (emit ind (chars " -> ")) (Ty.fmt ret ind)
                         | none => emptyW)
                    (fmt_bounds f.bounds ind)))))))))

/-- Rendering of a function (`src/function.rs`, `Function::fmt`).  A
trait function must be `Private` (the `assert!` at line 507, modelled as
`none`); a concrete function renders its visibility prefix.  An empty
body is a semicolon for a trait function and the
`panic!("impl blocks must define fn bodies")` (modelled as `none`)
otherwise; a non-empty body renders inside a `Formatter` block. -/
def Function.fmt (f : Function) (is_trait : Bool) (ind : Nat) : OW := fun st =>
  let t1 := Function.fmtPre f ind st
  let st1 := stAfter st t1
  if is_trait && !(f.vis == Vis.Private) then none
  else
    let t2 := if is_trait then [] else Vis.fmt f.vis ind st1
    let st2 := stAfter st1 t2
    let t3 := Function.fmtCore f ind st2
    let st3 := stAfter st2 t3
    if f.body.isEmpty then
      if !is_trait then none
      else some (t1 ++ t2 ++ t3 ++ Formatter.write ind st3 (chars ";\n"))
    else
      some (t1 ++ t2 ++ t3 ++
        Formatter.block ind (fun ind' => fun st' => Body.fmtList f.body ind' st') st3)

/-- A trait definition (`src/trait.rs`, `Trait`). -/
structure Trait where
  type_def : TypeDef
  parents : List Ty
  associated_consts : List AssociatedConst
  attributes : List (List Char)
  associated_types : List AssociatedType
  functions : List Function

/-- Rendering of a trait (`src/trait.rs`, `Trait::fmt`): attributes, the
head with parents, then a block with associated consts, associated types
and the member functions (rendered with `is_trait = true`), a blank line
before every function except an initial one with no preceding members. -/
def Trait.fmt (t : Trait) (ind : Nat) : OW :=
  seqWO (seqList (t.attributes.map fun attr => emit ind (chars "#[" ++ attr ++ chars "]\n")))
    (seqWO (t.type_def.fmt_head (chars "trait") t.parents ind)
      (Formatter.blockO ind (fun ind' =>
        seqWO (seqList (t.associated_consts.map fun cst =>
            emit ind' (chars "const " ++ cst.name ++ chars ": " ++ cst.ty ++ chars ";\n")))
          (seqWO (seqList (t.associated_types.map fun ty =>
              seqW (emit ind' (chars "type " ++ ty.name))
                (seqW (if ty.trait_bounds.isEmpty then emptyW
                       else seqW (emit ind' (chars ": ")) (fmt_bound_rhs ty.trait_bounds ind'))
                  (emit ind' (chars ";\n")))))
            (seqListO (t.functions.enum.map fun (i, func) =>
              seqWO (if i != 0 || !t.associated_types.isEmpty || !t.associated_consts.isEmpty
                     then emit ind' (chars "\n") else emptyW)
                (Function.fmt func true ind')))))))

/-- An impl block (`src/impl.rs`, `Impl`). -/
structure Impl where
  target : Ty
  generics : List (List Char)
  impl_trait : Option Ty
  associated_consts : List AssociatedConst
  associated_types : List AssociatedType
  bounds : List Bound
  macros : List (List Char)
  functions : List Function

/-- Rendering of an impl block (`src/impl.rs`, `Impl::fmt`).  An
associated const without a concrete value, and an associated type
without a concrete type, are `assert!`/`panic!` failures (modelled as
`none`); member functions render with `is_trait = false`, separated by a
blank line except before an initial function with no preceding
associated types. -/
def Impl.fmt (im : Impl) (ind : Nat) : OW :=
  seqWO (seqList (im.macros.map fun m => emit ind (m ++ chars "\n")))
    (seqWO (emit ind (chars "impl"))
      (seqWO (fmt_generics im.generics ind)
        (seqWO (match im.impl_trait with
                | some t => seqW (emit ind [' ']) (seqW (Ty.fmt t ind) (emit ind (chars " for")))
                | none => emptyW)
          (seqWO (emit ind [' '])
            (seqWO (Ty.fmt im.target ind)
              (seqWO (fmt_bounds im.bounds ind)
                (Formatter.blockO ind (fun ind' =>
                  seqOW (seqListO (im.associated_consts.map fun cst => fun st' =>
                      match cst.concrete_value with
                      | none => none
                      | some v =>
                          some ((seqW (Vis.fmt cst.concrete_vis ind')
                            (emit ind' (chars "const " ++ cst.name ++ chars ": " ++ cst.ty
                              ++ chars " = " ++ v ++ chars ";\n"))) st')))
                    (seqOW (seqListO (im.associated_types.map fun ty => fun st' =>
                        match ty.concrete_ty with
                        | none => none
                        | some (concrete_name, concrete_generics) =>
                            some (emit ind' (chars "type " ++ ty.name ++ chars " = "
                              ++ concrete_name
                              ++ (if concrete_generics.isEmpty then []
                                  else ['<'] ++ (concrete_generics.intersperse (chars ", ")).flatten ++ ['>'])
                              ++ chars ";\n") st')))
                      (seqListO (im.functions.enum.map fun (i, func) =>
                        seqWO (if i != 0 || !im.associated_types.isEmpty
                               then emit ind' (chars "\n") else emptyW)
                          (Function.fmt func false ind'))))))))))))

/-- A type alias (`src/type_alias.rs`, `TypeAlias`). -/
structure TypeAlias where
  type_def : TypeDef
  ty : Ty

/-- Rendering of a type alias (`src/type_alias.rs`, `TypeAlias::fmt`):
the head, ` = `, the aliased type and a terminating `;` with no trailing
newline. -/
def TypeAlias.fmt (ta : TypeAlias) (ind : Nat) : W :=
  seqW (ta.type_def.fmt_head (chars "type") [] ind)
    (seqW (emit ind (chars " = "))
      (seqW (Ty.fmt ta.ty ind) (emit ind [';'])))

/-- Rendering of an explicit line break (`src/line_break.rs`,
`LineBreak::fmt`): writes the empty string, relying on the scope's
inter-item separator for its effect. -/
def LineBreak.fmt (ind : Nat) : W := emit ind []

/-- First-seen collection of the visibilities appearing in an import
table (`src/scope.rs`, `Scope::fmt_imports` lines 413-422): a scan of
the table in insertion order, pushing each visibility not yet seen. -/
def collectVisibilities (imports : ImportTable) : List Vis :=
  imports.foldl
    (fun acc e => e.2.foldl
      (fun acc2 e2 => if e2.2.vis ∈ acc2 then acc2 else acc2 ++ [e2.2.vis]) acc)
    []

/-- Rendering of the import section (`src/scope.rs`,
`Scope::fmt_imports`): for every visibility in first-seen order, for
every path in insertion order, the names stored under the path with that
visibility, rendered as `use path::name;` for a single name and
`use path::{n1, n2};` for several. -/
def Scope.fmt_imports (imports : ImportTable) (ind : Nat) : W :=
  let visibilities := collectVisibilities imports
  seqList (visibilities.map fun vis =>
    seqList (imports.map fun e =>
      let tys : List (List Char) := (e.2.filter fun e2 => vis == e2.2.vis).map (·.1)
      if !tys.isEmpty then
        seqW (Vis.fmt vis ind)
          (seqW (emit ind (chars "use " ++ e.1 ++ chars "::"))
            (if tys.length > 1 then
              seqW (emit ind (chars "\x7b"))
                (seqW (joinW (emit ind (chars ", ")) (tys.map (emit ind)))
                  (emit ind (chars "\x7d;\n")))
            else
              emit ind (tys.headD [] ++ chars ";\n")))
      else emptyW))

/-! The scope tree (`src/item.rs`, enum `Item`; `src/module.rs`, struct
`Module`; `src/scope.rs`, struct `Scope`).  `Module` contains a nested
`Scope`, so the three types are mutually inductive. -/

mutual

inductive Item where
  | module (m : Module) : Item
  | struct' (v : Struct) : Item
  | function (f : Function) : Item
  | trait' (v : Trait) : Item
  | enum' (v : Enum) : Item
  | impl' (v : Impl) : Item
  | raw (s : List Char) : Item
  | typeAlias (v : TypeAlias) : Item
  | lineBreak : Item

inductive Module where
  | mk (name : List Char) (vis : Vis) (doc : Option Doc) (scope : Scope)
      (attributes : List (List Char)) (lints : List Lint) : Module

inductive Scope where
  | mk (doc : Option Doc) (imports : ImportTable) (items : List Item) : Scope

end

/-- The name of a module (`src/module.rs`, `Module::name`). -/
def Module.name : Module → List Char
  | .mk n _ _ _ _ _ => n

/-- The nested scope of a module (`src/module.rs`, `Module::scope`). -/
def Module.scope : Module → Scope
  | .mk _ _ _ sc _ _ => sc

/-- The documentation of a scope (`src/scope.rs`, `Scope::doc`). -/
def Scope.doc : Scope → Option Doc
  | .mk d _ _ => d

/-- The import table of a scope (`src/scope.rs`, `Scope::imports`). -/
def Scope.imports : Scope → ImportTable
  | .mk _ imp _ => imp

/-- The item list of a scope (`src/scope.rs`, `Scope::items`). -/
def Scope.items : Scope → List Item
  | .mk _ _ its => its

/-- Creates a new empty scope (`src/scope.rs`, `Scope::new`). -/
def Scope.new : Scope := .mk none [] []

/-- Creates a new blank module (`src/module.rs`, `Module::new`). -/
def Module.new (name : List Char) : Module :=
  .mk name .Private none Scope.new [] []

mutual

/-- Rendering of a scope (`src/scope.rs`, `Scope::fmt`): documentation,
the import section, a blank line when the import table is non-empty,
then the items with a newline written before every item except the
first. -/
def Scope.fmt (s : Scope) (ind : Nat) (st : Bool) : Option (List Char) :=
  match s with
  | .mk doc imports items =>
    let t1 := match doc with | some d => Doc.fmt d ind st | none => []
    let st1 := stAfter st t1
    let t2 := Scope.fmt_imports imports ind st1
    let st2 := stAfter st1 t2
    let t3 := if imports.isEmpty then [] else Formatter.write ind st2 (chars "\n")
    let st3 := stAfter st2 t3
    (Scope.fmtItems items true ind st3).map fun t4 => t1 ++ t2 ++ t3 ++ t4

/-- The item loop of `Scope::fmt` (`src/scope.rs` lines 389-407),
carrying the `i != 0` flag. -/
def Scope.fmtItems : List Item → Bool → Nat → Bool → Option (List Char)
  | [], _, _, _ => some []
  | it :: rest, isFirst, ind, st =>
      let t0 := if isFirst then [] else Formatter.write ind st (chars "\n")
      let st0 := stAfter st t0
      (Item.fmt it ind st0).bind fun t1 =>
        (Scope.fmtItems rest false ind (stAfter st0 t1)).map fun t2 => t0 ++ t1 ++ t2

/-- Dispatch of one scope item to its renderer (`src/scope.rs`, the
`match *item` of `Scope::fmt`); raw text is written verbatim followed by
a newline. -/
def Item.fmt : Item → Nat → Bool → Option (List Char)
  | .module m, ind, st => Module.fmt m ind st
  | .struct' v, ind, st => Struct.fmt v ind st
  | .function f, ind, st => Function.fmt f false ind st
  | .trait' v, ind, st => Trait.fmt v ind st
  | .enum' v, ind, st => Enum.fmt v ind st
  | .impl' v, ind, st => Impl.fmt v ind st
  | .raw s, ind, st => some (Formatter.write ind st (s ++ chars "\n"))
  | .typeAlias v, ind, st => some (TypeAlias.fmt v ind st)
  | .lineBreak, ind, st => some (LineBreak.fmt ind st)

/-- Rendering of a module (`src/module.rs`, `Module::fmt`):
documentation, attribute lines (note the trailing space the source
writes after `]`), lints, the visibility, `mod name` and the nested
scope inside a block.  The `Formatter::block` call is inlined so that
the recursive call on the nested scope is structural. -/
def Module.fmt (m : Module) (ind : Nat) (st : Bool) : Option (List Char) :=
  match m with
  | .mk name vis doc scope attributes lints =>
    let t1 := match doc with | some d => Doc.fmt d ind st | none => []
    let st1 := stAfter st t1
    let t2 := seqList (attributes.map fun attr => emit ind (chars "#[" ++ attr ++ chars "] \n")) st1
    let st2 := stAfter st1 t2
    let t3 := seqList (lints.map (Lint.fmt · ind)) st2
    let st3 := stAfter st2 t3
    let t4 := Vis.fmt vis ind st3
    let st4 := stAfter st3 t4
    let t5 := Formatter.write ind st4 (chars "mod " ++ name)
    let st5 := stAfter st4 t5
    let t6 := if !st5 then Formatter.write ind st5 [' '] else []
    let st6 := stAfter st5 t6
    let t7 := Formatter.write ind st6 (chars "\x7b\n")
    let st7 := stAfter st6 t7
    (Scope.fmt scope (ind + 1) st7).map fun t8 =>
      let st8 := stAfter st7 t8
      let t9 := Formatter.write ind st8 (chars "\x7d\n")
      t1 ++ t2 ++ t3 ++ t4 ++ t5 ++ t6 ++ t7 ++ t8 ++ t9

end

/-- Imports a type into the scope (`src/scope.rs`, `Scope::push_import`):
the imported name is cut at the first `::`, then inserted under
`(path, name)` with `or_insert_with`, so an existing key is left
untouched. -/
def Scope.push_import (s : Scope) (path ty : List Char) (vis : Vis) : Scope :=
  let ty := firstSeg ty
  Scope.mk s.doc (tableInsert s.imports path ty ((Import.new path ty).with_vis vis)) s.items

/-- Finds a module by name (`src/scope.rs`, `Scope::get_module`): the
first module item with the given name. -/
def Scope.get_module (s : Scope) (name : List Char) : Option Module :=
  (s.items.filterMap fun it =>
    match it with
    | .module m => if m.name == name then some m else none
    | _ => none).head?

/-- Pushes a module definition (`src/scope.rs`, `Scope::push_module`):
asserts that no module of that name exists (the panic is modelled as
`none`), then appends the module as the last item. -/
def Scope.push_module (s : Scope) (m : Module) : Option Scope :=
  if (s.get_module m.name).isSome then none
  else some (Scope.mk s.doc s.imports (s.items ++ [Item.module m]))

/-- Pushes a new module definition by name (`src/scope.rs`,
`Scope::new_module`). -/
def Scope.new_module (s : Scope) (name : List Char) : Option Scope :=
  s.push_module (Module.new name)

/-- The `Display` implementation for `Scope` (`src/scope.rs` lines
41-52): renders into a fresh formatter (indent level `0`, empty buffer,
hence at the start of a line), then removes one trailing newline
character when the buffer ends in one.  A panic during rendering
propagates (`none`). -/
def Scope.toText (s : Scope) : Option (List Char) :=
  (Scope.fmt s 0 true).map fun ret =>
    if ret.getLast? == some '\n' then ret.dropLast else ret

/-- A file to generate (`src/files/file.rs`, `File`): a relative path
and the scope holding its contents. -/
structure File where
  path : List Char
  scope : Scope

/-- Errors of file code generation (`src/files/file.rs`,
`FileCodegenError`); the `std::io::Error` payload is modelled as its
message text. -/
inductive FileCodegenError where
  | FileAlreadyExists (path : List Char)
  | FileGenerationFailed (err : List Char)
deriving DecidableEq

/-- Writes the rendered scope to a file (`src/files/file.rs`,
`File::generate`).  The file-system interactions are modelled as oracle
outcomes: `file_path` is the joined `out_dir.join(self.path)`,
`path_exists` whether that destination already exists, `create_result`
the outcome of `fs::File::create`, and `write_result` the outcome of
`write_all`.  Mirroring the source: an existing destination returns
`FileAlreadyExists` before anything is written; when creation succeeds
the scope is rendered (a rendering panic propagates as `none`) and a
failing write returns `FileGenerationFailed`; when creation fails the
`if let Ok(..) = .. && let Err(..) = ..` chain does not match and the
function falls through to `Ok(())`. -/
def File.generate (f : File) (file_path : List Char) (path_exists : Bool)
    (create_result : Except (List Char) Unit) (write_result : Except (List Char) Unit) :
    Option (Except FileCodegenError Unit) :=
  if path_exists then some (Except.error (.FileAlreadyExists file_path))
  else
    match create_result with
    | .ok _ =>
        (Scope.toText f.scope).map fun _txt =>
          match write_result with
          | .error err => Except.error (.FileGenerationFailed err)
          | .ok _ => Except.ok ()
    | .error _ => some (Except.ok ())

/-- The renders of the items of a scope, each taken at indent level `0`
at the start of a line (`none` when some item's renderer panics); used
to state the scope sequencing claims. -/
def itemTexts : List Item → Option (List (List Char))
  | [] => some []
  | it :: rest => (Item.fmt it 0 true).bind fun t => (itemTexts rest).map fun ts => t :: ts

/-- Appends a visibility to a first-seen list when it is not already
present (spec §4.2 step 1). -/
def addFirstSeen (acc : List Vis) (v : Vis) : List Vis :=
  if v ∈ acc then acc else acc ++ [v]

/-- Specification-side visibility order (spec §4.2 step 1): the distinct
visibilities of the import table in first-seen order over a scan of the
(path, name) pairs in table insertion order. -/
def specVisOrder (imports : ImportTable) : List Vis :=
  ((imports.map fun e => e.2.map fun e2 => e2.2.vis).flatten).foldl addFirstSeen []

/-- Specification-side text of one import statement (spec §4.2 step 2):
`<visibility-prefix>use <p>::<name>;` for exactly one name and
`<visibility-prefix>use <p>::{<n1>, <n2>, ...};` with comma-space
separation for more than one. -/
def importStatement (v : Vis) (path : List Char) (tys : List (List Char)) : List Char :=
  visText v ++ chars "use " ++ path ++ chars "::"
    ++ (match tys with
        | [t] => t
        | _ => chars "\x7b" ++ List.intercalate (chars ", ") tys ++ chars "\x7d")
    ++ chars ";\n"

/-- Specification-side import section (spec §4.2): for each visibility in
first-seen order, for each declaring path in insertion order, one
statement when at least one name under the path has that visibility, and
nothing otherwise. -/
def specImportSection (imports : ImportTable) : List (List Char) :=
  ((specVisOrder imports).map fun v =>
    imports.filterMap fun e =>
      let tys : List (List Char) := (e.2.filter fun e2 => e2.2.vis == v).map (·.1)
      if tys.isEmpty then none else some (importStatement v e.1 tys)).flatten

/-- A block nested `k + 1` levels deep whose innermost body is the single
content line `s`; used to state the indentation claim. -/
def nestedBlock (s : List Char) : Nat → Block
  | 0 => .mk [.str s]
  | k + 1 => .mk [.block (nestedBlock s k)]

/-- The opening-brace lines of `k` nested blocks starting at depth `d`:
each line is the indentation of its depth followed by `{`. -/
def openLines : Nat → Nat → List Char
  | _, 0 => []
  | d, k + 1 => indentOf d ++ chars "\x7b\n" ++ openLines (d + 1) k

/-- The closing-brace lines of `k` nested blocks starting at depth `d`,
innermost first: each line is the indentation of its depth followed by
`}`. -/
def closeLines : Nat → Nat → List Char
  | _, 0 => []
  | d, k + 1 => closeLines (d + 1) k ++ indentOf d ++ chars "\x7d\n"

/-- One rendered documentation line without its newline: `///` plus, for
a non-empty line, a space and the line text. -/
def docLine (l : List Char) : List Char :=
  chars "///" ++ (if l.isEmpty then [] else ' ' :: l)

/-! Basic lemmas about the Formatter write primitive and line-start
tracking. -/

@[simp] theorem stAfter_nil (st : Bool) : stAfter st [] = st := rfl

theorem stAfter_cons (st : Bool) (c : Char) (cs : List Char) :
    stAfter st (c :: cs) = stAfter (c == '\n') cs := by
  cases cs with
  | nil => simp [stAfter]
  | cons d ds =>
      show (match (c :: d :: ds).getLast? with | none => st | some x => x == '\n')
        = (match (d :: ds).getLast? with | none => (c == '\n') | some x => x == '\n')
      rw [List.getLast?_cons_cons]
      cases h : (d :: ds).getLast? with
      | none => rw [List.getLast?_eq_none_iff] at h; exact absurd h (by simp)
      | some e => rfl

theorem stAfter_append (st : Bool) (a b : List Char) :
    stAfter st (a ++ b) = stAfter (stAfter st a) b := by
  induction a generalizing st with
  | nil => rw [List.nil_append, stAfter_nil]
  | cons c cs ih => rw [List.cons_append, stAfter_cons, ih, stAfter_cons]

theorem stAfter_ne_nil (st st' : Bool) (t : List Char) (h : t ≠ []) :
    stAfter st t = stAfter st' t := by
  cases t with
  | nil => exact absurd rfl h
  | cons c cs => rw [stAfter_cons, stAfter_cons]

@[simp] theorem write_nil (ind : Nat) (st : Bool) : Formatter.write ind st [] = [] := rfl

@[simp] theorem write_zero (st : Bool) (t : List Char) : Formatter.write 0 st t = t := by
  induction t generalizing st with
  | nil => rfl
  | cons c cs ih => simp [Formatter.write, ih]

theorem write_append (ind : Nat) (st : Bool) (t1 t2 : List Char) :
    Formatter.write ind st (t1 ++ t2)
      = Formatter.write ind st t1 ++ Formatter.write ind (stAfter st t1) t2 := by
  induction t1 generalizing st with
  | nil => simp
  | cons c cs ih =>
      simp only [List.cons_append, Formatter.write, stAfter_cons, List.append_eq, ih,
        List.append_assoc]

theorem write_stAfter (ind : Nat) (st st' : Bool) (t : List Char) :
    stAfter st (Formatter.write ind st' t) = stAfter st t := by
  induction t generalizing st st' with
  | nil => rfl
  | cons c cs ih =>
      show stAfter st ((if st' && !(ind == 0) && !(c == '\n') then indentOf ind else [])
          ++ c :: Formatter.write ind (c == '\n') cs) = _
      rw [stAfter_append,
        stAfter_ne_nil _ (c == '\n') (c :: Formatter.write ind (c == '\n') cs) (by simp),
        stAfter_cons, ih, stAfter_cons]

/-- A write of text not containing a newline, starting mid-line, is
appended verbatim: no indentation is emitted. -/
theorem write_false_no_nl (ind : Nat) (s : List Char) (h : ¬ '\n' ∈ s) :
    Formatter.write ind false s = s := by
  induction s with
  | nil => rfl
  | cons c cs ih =>
      simp only [List.mem_cons, not_or] at h
      simp [Formatter.write, beq_eq_false_iff_ne.mpr (Ne.symm h.1), ih h.2]

/-- A single non-empty content line written at the start of a line is
prefixed with the indentation of the current level, and the terminating
newline is appended bare. -/
theorem write_line (ind : Nat) (s : List Char) (hnl : ¬ '\n' ∈ s) (hne : s ≠ []) :
    Formatter.write ind true (s ++ chars "\n") = indentOf ind ++ s ++ chars "\n" := by
  cases s with
  | nil => exact absurd rfl hne
  | cons c cs =>
      simp only [List.mem_cons, not_or] at hnl
      have hc : (c == '\n') = false := beq_eq_false_iff_ne.mpr (Ne.symm hnl.1)
      have hpre : (if true && !(ind == 0) && !(c == '\n') then indentOf ind else [])
          = indentOf ind := by
        cases hi : (ind == 0) with
        | true =>
            have h0 : ind = 0 := by simpa using hi
            simp [h0, indentOf]
        | false => simp [hi, hc]
      show (if true && !(ind == 0) && !(c == '\n') then indentOf ind else [])
            ++ c :: Formatter.write ind (c == '\n') (cs ++ chars "\n") = _
      rw [hpre, hc, write_append, write_false_no_nl ind cs hnl.2]
      have hlast : Formatter.write ind (stAfter false cs) (chars "\n") = chars "\n" := by
        cases h : stAfter false cs <;> simp [chars, Formatter.write]
      rw [hlast]
      simp

/-! Writer actions at indent level `0` append no indentation, so their
output does not depend on the line-start flag.  The following predicates
and closure lemmas make that reasoning compositional. -/

/-- A writer action whose output does not depend on the line-start flag. -/
def Wconst (w : W) : Prop := ∀ st, w st = w true

/-- A writer action whose output is never empty. -/
def Wne (w : W) : Prop := ∀ st, w st ≠ []

/-- A fallible writer action whose result does not depend on the
line-start flag. -/
def OWconst (f : OW) : Prop := ∀ st, f st = f true

theorem wconst_emptyW : Wconst emptyW := fun _ => rfl

theorem wconst_emit0 (t : List Char) : Wconst (emit 0 t) := by
  intro st; simp [emit]

theorem wne_emit0 (t : List Char) (h : t ≠ []) : Wne (emit 0 t) := by
  intro st; simpa [emit] using h

theorem wconst_seqW {a b : W} (ha : Wconst a) (hb : Wconst b) : Wconst (seqW a b) := by
  intro st
  simp only [seqW, ha st, hb (stAfter st (a true)), hb (stAfter true (a true))]

theorem wconst_seqW_left_ne {a b : W} (ha : Wconst a) (hne : Wne a) :
    Wconst (seqW a b) := by
  intro st
  simp only [seqW, ha st]
  rw [stAfter_ne_nil st true (a true) (hne true)]

theorem wne_seqW_left {a : W} (b : W) (ha : Wne a) : Wne (seqW a b) := by
  intro st
  simp only [seqW]
  intro h
  exact ha st (List.append_eq_nil.mp h).1

theorem wne_seqW_right (a : W) {b : W} (hb : Wne b) : Wne (seqW a b) := by
  intro st
  simp only [seqW]
  intro h
  exact hb _ (List.append_eq_nil.mp h).2

theorem wconst_seqList {ws : List W} (h : ∀ w ∈ ws, Wconst w) : Wconst (seqList ws) := by
  induction ws with
  | nil => exact wconst_emptyW
  | cons w ws ih =>
      exact wconst_seqW (h w (by simp)) (ih fun x hx => h x (by simp [hx]))

theorem mem_intersperse {α : Type} {sep x : α} :
    ∀ {l : List α}, x ∈ l.intersperse sep → x = sep ∨ x ∈ l := by
  intro l
  induction l with
  | nil => simp [List.intersperse]
  | cons a as ih =>
      cases as with
      | nil =>
          intro h
          rw [List.intersperse_singleton] at h
          exact Or.inr h
      | cons b bs =>
          intro h
          rw [List.intersperse_cons_cons] at h
          simp only [List.mem_cons] at h
          rcases h with h | h | h
          · exact Or.inr (by simp [h])
          · exact Or.inl h
          · rcases ih h with h' | h'
            · exact Or.inl h'
            · exact Or.inr (by simp [h'])

theorem wconst_joinW {sep : W} {ws : List W} (hsep : Wconst sep)
    (h : ∀ w ∈ ws, Wconst w) : Wconst (joinW sep ws) := by
  refine wconst_seqList fun w hw => ?_
  rcases mem_intersperse hw with h' | h'
  · exact h' ▸ hsep
  · exact h w h'

theorem owconst_liftW {a : W} (ha : Wconst a) : OWconst (liftW a) := by
  intro st; simp [liftW, ha st]

theorem owconst_seqOW {a b : OW} (ha : OWconst a) (hb : OWconst b) :
    OWconst (seqOW a b) := by
  intro st
  simp only [seqOW, ha st]
  cases h : a true with
  | none => rfl
  | some t =>
      show (b (stAfter st t)).map (fun t2 => t ++ t2)
          = (b (stAfter true t)).map (fun t2 => t ++ t2)
      rw [hb (stAfter st t), hb (stAfter true t)]

theorem owconst_seqOW_left_ne {a b : OW} (ha : OWconst a)
    (hne : ∀ t, a true = some t → t ≠ []) : OWconst (seqOW a b) := by
  intro st
  simp only [seqOW, ha st]
  cases h : a true with
  | none => rfl
  | some t =>
      show (b (stAfter st t)).map (fun t2 => t ++ t2)
          = (b (stAfter true t)).map (fun t2 => t ++ t2)
      rw [stAfter_ne_nil st true t (hne t h)]

theorem owconst_seqWO {a : W} {b : OW} (ha : Wconst a) (hb : OWconst b) :
    OWconst (seqWO a b) :=
  owconst_seqOW (owconst_liftW ha) hb

theorem owconst_seqWO_ne {a : W} (b : OW) (ha : Wconst a) (hne : Wne a) :
    OWconst (seqWO a b) := by
  refine owconst_seqOW_left_ne (owconst_liftW ha) ?_
  intro t ht
  simp only [liftW, Option.some.injEq] at ht
  exact ht ▸ hne true

theorem owconst_seqListO {ws : List OW} (h : ∀ w ∈ ws, OWconst w) :
    OWconst (seqListO ws) := by
  induction ws with
  | nil => exact owconst_liftW wconst_emptyW
  | cons w ws ih =>
      exact owconst_seqOW (h w (by simp)) (ih fun x hx => h x (by simp [hx]))

theorem wconst_iteB (c : Bool) {a b : W} (ha : Wconst a) (hb : Wconst b) :
    Wconst (if c then a else b) := by
  cases c
  · simpa using hb
  · simpa using ha

theorem wconst_iteP (c : Prop) [Decidable c] {a b : W} (ha : Wconst a) (hb : Wconst b) :
    Wconst (if c then a else b) := by
  by_cases h : c
  · rw [if_pos h]; exact ha
  · rw [if_neg h]; exact hb

theorem owconst_iteB (c : Bool) {a b : OW} (ha : OWconst a) (hb : OWconst b) :
    OWconst (if c then a else b) := by
  cases c
  · simpa using hb
  · simpa using ha

theorem wconst_vis_fmt (v : Vis) : Wconst (Vis.fmt v 0) := by
  cases v
  case Private => exact wconst_emptyW
  case Custom s => exact wconst_seqW (wconst_emit0 _) (wconst_emit0 _)
  all_goals exact wconst_emit0 _

theorem wconst_doc_fmt (d : Doc) : Wconst (Doc.fmt d 0) := by
  refine wconst_seqList fun w hw => ?_
  rcases List.mem_map.mp hw with ⟨l, _, rfl⟩
  exact wconst_seqW (wconst_emit0 _)
    (wconst_seqW (wconst_iteB _ wconst_emptyW (wconst_seqW (wconst_emit0 _) (wconst_emit0 _)))
      (wconst_emit0 _))

theorem wconst_lint_fmt (l : Lint) : Wconst (Lint.fmt l 0) := by
  cases l <;> exact wconst_emit0 _

theorem wconst_gparam_fmt (g : GenericParameter) : Wconst (GenericParameter.fmt g 0) := by
  refine wconst_seqW (wconst_emit0 _) (wconst_iteB _ wconst_emptyW ?_)
  refine wconst_seqW (wconst_emit0 _) (wconst_joinW (wconst_emit0 _) fun w hw => ?_)
  rcases List.mem_map.mp hw with ⟨x, _, rfl⟩
  exact wconst_emit0 _

theorem wconst_ty_fmt (t : Ty) : Wconst (Ty.fmt t 0) := by
  refine wconst_seqW (wconst_emit0 _) ?_
  unfold Ty.fmt_slice
  refine wconst_iteB _ wconst_emptyW ?_
  refine wconst_seqW (wconst_emit0 _)
    (wconst_seqW (wconst_joinW (wconst_emit0 _) fun w hw => ?_) (wconst_emit0 _))
  rcases List.mem_map.mp hw with ⟨x, _, rfl⟩
  exact wconst_gparam_fmt x

theorem wconst_fmt_generics (gs : List (List Char)) : Wconst (fmt_generics gs 0) := by
  unfold fmt_generics
  refine wconst_iteB _ wconst_emptyW ?_
  refine wconst_seqW (wconst_emit0 _)
    (wconst_seqW (wconst_joinW (wconst_emit0 _) fun w hw => ?_) (wconst_emit0 _))
  rcases List.mem_map.mp hw with ⟨x, _, rfl⟩
  exact wconst_emit0 _

theorem wconst_fmt_bound_rhs (tys : List (List Char)) : Wconst (fmt_bound_rhs tys 0) := by
  refine wconst_joinW (wconst_emit0 _) fun w hw => ?_
  rcases List.mem_map.mp hw with ⟨x, _, rfl⟩
  exact wconst_emit0 _

theorem wconst_fmt_bounds (bs : List Bound) : Wconst (fmt_bounds bs 0) := by
  unfold fmt_bounds
  refine wconst_iteB _ wconst_emptyW ?_
  refine wconst_seqW (wconst_emit0 _) (wconst_seqList fun w hw => ?_)
  rcases List.mem_map.mp hw with ⟨b, _, rfl⟩
  exact wconst_seqW (wconst_emit0 _) (wconst_seqW (wconst_fmt_bound_rhs _) (wconst_emit0 _))

theorem wconst_doc_opt (d : Option Doc) :
    Wconst (match d with | some d => Doc.fmt d 0 | none => emptyW) := by
  cases d
  · exact wconst_emptyW
  · exact wconst_doc_fmt _

theorem wconst_typedef_head (td : TypeDef) (kw : List Char) (ps : List Ty) :
    Wconst (TypeDef.fmt_head td kw ps 0) := by
  unfold TypeDef.fmt_head
  refine wconst_seqW (wconst_doc_opt _) (wconst_seqW ?_ (wconst_seqW ?_ (wconst_seqW ?_
    (wconst_seqW ?_ (wconst_seqW ?_ (wconst_seqW (wconst_vis_fmt _) (wconst_seqW (wconst_emit0 _)
      (wconst_seqW (wconst_ty_fmt _) (wconst_seqW ?_ (wconst_fmt_bounds _))))))))))
  · refine wconst_seqList fun w hw => ?_
    rcases List.mem_map.mp hw with ⟨x, _, rfl⟩
    exact wconst_lint_fmt x
  · unfold TypeDef.fmt_derive
    refine wconst_iteB _ wconst_emptyW ?_
    refine wconst_seqW (wconst_emit0 _)
      (wconst_seqW (wconst_joinW (wconst_emit0 _) fun w hw => ?_) (wconst_emit0 _))
    rcases List.mem_map.mp hw with ⟨x, _, rfl⟩
    exact wconst_emit0 _
  · unfold TypeDef.fmt_repr
    cases td.repr
    · exact wconst_emptyW
    · exact wconst_emit0 _
  · refine wconst_seqList fun w hw => ?_
    rcases List.mem_map.mp hw with ⟨x, _, rfl⟩
    exact wconst_emit0 _
  · refine wconst_seqList fun w hw => ?_
    rcases List.mem_map.mp hw with ⟨x, _, rfl⟩
    exact wconst_emit0 _
  · refine wconst_iteB _ wconst_emptyW (wconst_seqList fun w hw => ?_)
    rcases List.mem_map.mp hw with ⟨x, _, rfl⟩
    exact wconst_seqW (wconst_emit0 _) (wconst_ty_fmt _)

theorem wne_typedef_head (td : TypeDef) (kw : List Char) (ps : List Ty) :
    Wne (TypeDef.fmt_head td kw ps 0) := by
  unfold TypeDef.fmt_head
  refine wne_seqW_right _ (wne_seqW_right _ (wne_seqW_right _ (wne_seqW_right _
    (wne_seqW_right _ (wne_seqW_right _ (wne_seqW_right _ (wne_seqW_left _ ?_)))))))
  exact wne_emit0 _ (by simp)

theorem wconst_fmtPre (f : Function) : Wconst (Function.fmtPre f 0) := by
  unfold Function.fmtPre
  refine wconst_seqW (wconst_doc_opt _) (wconst_seqW ?_ ?_)
  · refine wconst_seqList fun w hw => ?_
    rcases List.mem_map.mp hw with ⟨x, _, rfl⟩
    exact wconst_lint_fmt x
  · refine wconst_seqList fun w hw => ?_
    rcases List.mem_map.mp hw with ⟨x, _, rfl⟩
    exact wconst_emit0 _

theorem wconst_selfarg (sa : SelfArg) : Wconst (SelfArg.fmt sa 0) := by
  cases sa
  case None => exact wconst_emptyW
  all_goals exact wconst_emit0 _

theorem wconst_fmtCore (f : Function) : Wconst (Function.fmtCore f 0) := by
  unfold Function.fmtCore
  refine wconst_seqW ?_ (wconst_seqW (wconst_iteB _ (wconst_emit0 _) wconst_emptyW)
    (wconst_seqW (wconst_emit0 _) (wconst_seqW (wconst_fmt_generics _)
      (wconst_seqW (wconst_emit0 _) (wconst_seqW (wconst_selfarg _)
        (wconst_seqW ?_ (wconst_seqW (wconst_emit0 _) (wconst_seqW ?_ (wconst_fmt_bounds _)))))))))
  · cases f.extern_abi
    · exact wconst_emptyW
    · exact wconst_emit0 _
  · refine wconst_seqList fun w hw => ?_
    rcases List.mem_map.mp hw with ⟨x, _, rfl⟩
    exact wconst_seqW (wconst_iteB _ (wconst_emit0 _) wconst_emptyW)
      (wconst_seqW (wconst_emit0 _) (wconst_ty_fmt _))
  · cases f.ret
    · exact wconst_emptyW
    · exact wconst_seqW (wconst_emit0 _) (wconst_ty_fmt _)

theorem wne_fmtCore (f : Function) : Wne (Function.fmtCore f 0) := by
  unfold Function.fmtCore
  refine wne_seqW_right _ (wne_seqW_right _ (wne_seqW_left _ ?_))
  exact wne_emit0 _ (by simp [chars])

theorem owconst_struct_fmt (v : Struct) : OWconst (Struct.fmt v 0) :=
  owconst_seqWO_ne _ (wconst_typedef_head _ _ _) (wne_typedef_head _ _ _)

theorem owconst_enum_fmt (v : Enum) : OWconst (Enum.fmt v 0) :=
  owconst_seqWO_ne _ (wconst_typedef_head _ _ _) (wne_typedef_head _ _ _)

theorem owconst_trait_fmt (v : Trait) : OWconst (Trait.fmt v 0) := by
  unfold Trait.fmt
  refine owconst_seqWO ?_ (owconst_seqWO_ne _ (wconst_typedef_head _ _ _)
    (wne_typedef_head _ _ _))
  refine wconst_seqList fun w hw => ?_
  rcases List.mem_map.mp hw with ⟨x, _, rfl⟩
  exact wconst_emit0 _

theorem owconst_impl_fmt (v : Impl) : OWconst (Impl.fmt v 0) := by
  unfold Impl.fmt
  refine owconst_seqWO ?_ (owconst_seqWO_ne _ (wconst_emit0 _) (wne_emit0 _ (by simp [chars])))
  refine wconst_seqList fun w hw => ?_
  rcases List.mem_map.mp hw with ⟨x, _, rfl⟩
  exact wconst_emit0 _

theorem wconst_attrs_list (attrs : List (List Char)) :
    Wconst (seqList (attrs.map fun attr => emit 0 (chars "#[" ++ attr ++ chars "]\n"))) := by
  refine wconst_seqList fun w hw => ?_
  rcases List.mem_map.mp hw with ⟨x, _, rfl⟩
  exact wconst_emit0 _

theorem wconst_mod_attrs_list (attrs : List (List Char)) :
    Wconst (seqList (attrs.map fun attr => emit 0 (chars "#[" ++ attr ++ chars "] \n"))) := by
  refine wconst_seqList fun w hw => ?_
  rcases List.mem_map.mp hw with ⟨x, _, rfl⟩
  exact wconst_emit0 _

theorem wconst_lints_list (lints : List Lint) :
    Wconst (seqList (lints.map (Lint.fmt · 0))) := by
  refine wconst_seqList fun w hw => ?_
  rcases List.mem_map.mp hw with ⟨x, _, rfl⟩
  exact wconst_lint_fmt x

theorem owconst_function_fmt_false (f : Function) : OWconst (Function.fmt f false 0) := by
  intro st
  show Function.fmt f false 0 st = Function.fmt f false 0 true
  unfold Function.fmt
  simp only [Bool.false_and, Bool.not_false, if_true, if_false, Bool.false_eq_true]
  rw [wconst_fmtPre f st]
  rw [wconst_vis_fmt f.vis (stAfter st (Function.fmtPre f 0 true))]
  rw [wconst_vis_fmt f.vis (stAfter true (Function.fmtPre f 0 true))]
  rw [wconst_fmtCore f
    (stAfter (stAfter st (Function.fmtPre f 0 true)) (Vis.fmt f.vis 0 true))]
  rw [wconst_fmtCore f
    (stAfter (stAfter true (Function.fmtPre f 0 true)) (Vis.fmt f.vis 0 true))]
  rw [stAfter_ne_nil
    (stAfter (stAfter st (Function.fmtPre f 0 true)) (Vis.fmt f.vis 0 true))
    (stAfter (stAfter true (Function.fmtPre f 0 true)) (Vis.fmt f.vis 0 true))
    (Function.fmtCore f 0 true) (wne_fmtCore f true)]

theorem owconst_module_fmt (m : Module) : OWconst (Module.fmt m 0) := by
  intro st
  cases m with
  | mk name vis doc scope attributes lints =>
      show Module.fmt (.mk name vis doc scope attributes lints) 0 st
        = Module.fmt (.mk name vis doc scope attributes lints) 0 true
      simp only [Module.fmt]
      have hmod : ∀ st', stAfter st' (chars "mod " ++ name)
          = stAfter true (chars "mod " ++ name) :=
        fun st' => stAfter_ne_nil st' true _ (by simp [chars])
      have ha : ∀ st', seqList (attributes.map fun attr =>
            emit 0 (chars "#[" ++ attr ++ chars "] \n")) st'
          = seqList (attributes.map fun attr =>
            emit 0 (chars "#[" ++ attr ++ chars "] \n")) true :=
        wconst_mod_attrs_list attributes
      have hl : ∀ st', seqList (lints.map (Lint.fmt · 0)) st'
          = seqList (lints.map (Lint.fmt · 0)) true :=
        wconst_lints_list lints
      have hv : ∀ st', Vis.fmt vis 0 st' = Vis.fmt vis 0 true := wconst_vis_fmt vis
      cases doc with
      | none =>
          simp only [stAfter_nil, ha, hl, hv, write_zero, hmod]
      | some d =>
          have hd : ∀ st', Doc.fmt d 0 st' = Doc.fmt d 0 true := wconst_doc_fmt d
          simp only [hd, ha, hl, hv, write_zero, hmod]

theorem owconst_item_fmt (it : Item) : OWconst (Item.fmt it 0) := by
  cases it with
  | module m => exact owconst_module_fmt m
  | struct' v => exact owconst_struct_fmt v
  | function f => exact owconst_function_fmt_false f
  | trait' v => exact owconst_trait_fmt v
  | enum' v => exact owconst_enum_fmt v
  | impl' v => exact owconst_impl_fmt v
  | raw s => intro st; simp [Item.fmt]
  | typeAlias v =>
      intro st
      show some (TypeAlias.fmt v 0 st) = some (TypeAlias.fmt v 0 true)
      have : Wconst (TypeAlias.fmt v 0) := by
        unfold TypeAlias.fmt
        exact wconst_seqW (wconst_typedef_head _ _ _) (wconst_seqW (wconst_emit0 _)
          (wconst_seqW (wconst_ty_fmt _) (wconst_emit0 _)))
      rw [this st]
  | lineBreak => intro st; simp [Item.fmt, LineBreak.fmt, emit]

theorem wconst_fmt_imports (imports : ImportTable) : Wconst (Scope.fmt_imports imports 0) := by
  unfold Scope.fmt_imports
  refine wconst_seqList fun w hw => ?_
  rcases List.mem_map.mp hw with ⟨v, _, rfl⟩
  refine wconst_seqList fun w2 hw2 => ?_
  rcases List.mem_map.mp hw2 with ⟨e, _, rfl⟩
  simp only
  refine wconst_iteB _
    (wconst_seqW (wconst_vis_fmt _) (wconst_seqW (wconst_emit0 _) (wconst_iteP _
      (wconst_seqW (wconst_emit0 _) (wconst_seqW (wconst_joinW (wconst_emit0 _) ?_)
        (wconst_emit0 _)))
      (wconst_emit0 _))))
    wconst_emptyW
  intro w3 hw3
  rcases List.mem_map.mp hw3 with ⟨x, _, rfl⟩
  exact wconst_emit0 _

theorem intercalate_cons (sep : List Char) (x : List Char) (xs : List (List Char)) :
    List.intercalate sep (x :: xs) = x ++ (xs.map (sep ++ ·)).flatten := by
  induction xs generalizing x with
  | nil => simp [List.intercalate]
  | cons y t ih =>
      have h1 : List.intercalate sep (x :: y :: t) = x ++ sep ++ List.intercalate sep (y :: t) := by
        simp [List.intercalate, List.intersperse_cons_cons]
      rw [h1, ih y]
      simp

theorem stAfter_newline (st : Bool) : stAfter st (chars "\n") = true := by
  simp [stAfter, chars]

theorem fmtItems_zero_false (items : List Item) :
    ∀ (ts : List (List Char)) (st : Bool), itemTexts items = some ts →
    Scope.fmtItems items false 0 st = some ((ts.map (chars "\n" ++ ·)).flatten) := by
  induction items with
  | nil =>
      intro ts st h
      simp only [itemTexts, Option.some.injEq] at h
      subst h
      simp [Scope.fmtItems]
  | cons it rest ih =>
      intro ts st h
      simp only [itemTexts] at h
      cases hf : Item.fmt it 0 true with
      | none => rw [hf] at h; simp at h
      | some t =>
          rw [hf] at h
          cases hr : itemTexts rest with
          | none => rw [hr] at h; simp at h
          | some ts' =>
              rw [hr] at h
              simp only [Option.some_bind, Option.map_some', Option.some.injEq] at h
              subst h
              have hstep : Scope.fmtItems (it :: rest) false 0 st
                  = (Item.fmt it 0 (stAfter st (chars "\n"))).bind fun t1 =>
                    (Scope.fmtItems rest false 0 (stAfter (stAfter st (chars "\n")) t1)).map
                      fun t2 => chars "\n" ++ t1 ++ t2 := by
                simp [Scope.fmtItems]
              rw [hstep, stAfter_newline, hf]
              simp only [Option.some_bind]
              rw [ih ts' (stAfter true t) hr]
              simp

theorem fmtItems_zero_true (items : List Item) (ts : List (List Char)) (st : Bool)
    (h : itemTexts items = some ts) :
    Scope.fmtItems items true 0 st = some (List.intercalate (chars "\n") ts) := by
  cases items with
  | nil =>
      simp only [itemTexts, Option.some.injEq] at h
      subst h
      simp [Scope.fmtItems, List.intercalate]
  | cons it rest =>
      simp only [itemTexts] at h
      cases hf : Item.fmt it 0 true with
      | none => rw [hf] at h; simp at h
      | some t =>
          rw [hf] at h
          cases hr : itemTexts rest with
          | none => rw [hr] at h; simp at h
          | some ts' =>
              rw [hr] at h
              simp only [Option.some_bind, Option.map_some', Option.some.injEq] at h
              subst h
              have hstep : Scope.fmtItems (it :: rest) true 0 st
                  = (Item.fmt it 0 st).bind fun t1 =>
                    (Scope.fmtItems rest false 0 (stAfter st t1)).map fun t2 => t1 ++ t2 := by
                simp [Scope.fmtItems]
              rw [hstep, owconst_item_fmt it st, hf]
              simp only [Option.some_bind]
              rw [fmtItems_zero_false rest ts' (stAfter st t) hr]
              rw [intercalate_cons]
              simp

/-- The rendering of a scope at indent level `0`: documentation, then
the import section, then a newline exactly when the import table is
non-empty, then the item renders joined by single newlines. -/
theorem scope_fmt_zero (doc : Option Doc) (imports : ImportTable) (items : List Item)
    (ts : List (List Char)) (st : Bool) (h : itemTexts items = some ts) :
    Scope.fmt (.mk doc imports items) 0 st
      = some ((match doc with | some d => Doc.fmt d 0 true | none => [])
          ++ Scope.fmt_imports imports 0 true
          ++ (if imports.isEmpty then [] else chars "\n")
          ++ List.intercalate (chars "\n") ts) := by
  have himp : ∀ st', Scope.fmt_imports imports 0 st' = Scope.fmt_imports imports 0 true :=
    wconst_fmt_imports imports
  simp only [Scope.fmt]
  cases doc with
  | none =>
      simp only [himp, write_zero]
      rw [fmtItems_zero_true items ts _ h]
      cases hi : imports.isEmpty <;> simp
  | some d =>
      have hd : ∀ st', Doc.fmt d 0 st' = Doc.fmt d 0 true := wconst_doc_fmt d
      simp only [hd, himp, write_zero]
      rw [fmtItems_zero_true items ts _ h]
      cases hi : imports.isEmpty <;> simp

/-! Claim C7: indentation of nested blocks. -/

theorem stAfter_of_getLast (st : Bool) (t : List Char) (h : t.getLast? = some '\n') :
    stAfter st t = true := by
  simp [stAfter, h]

theorem stAfter_ends_nl (st : Bool) (x t : List Char) (h : t.getLast? = some '\n') :
    stAfter st (x ++ t) = true := by
  rw [stAfter_append]
  exact stAfter_of_getLast _ t h

/-- A single non-newline character written at the start of a line is
indented. -/
theorem write_one (ind : Nat) (c : Char) (h : c ≠ '\n') :
    Formatter.write ind true [c] = indentOf ind ++ [c] := by
  have hc : (c == '\n') = false := beq_eq_false_iff_ne.mpr h
  show (if true && !(ind == 0) && !(c == '\n') then indentOf ind else [])
        ++ c :: Formatter.write ind (c == '\n') [] = _
  have hpre : (if true && !(ind == 0) && !(c == '\n') then indentOf ind else [])
      = indentOf ind := by
    cases hi : (ind == 0) with
    | true =>
        have h0 : ind = 0 := by simpa using hi
        simp [h0, indentOf]
    | false => simp [hi, hc]
  rw [hpre]
  simp

theorem write_bare_newline (ind : Nat) (st : Bool) :
    Formatter.write ind st (chars "\n") = chars "\n" := by
  cases st <;> simp [chars, Formatter.write]

theorem closeLines_getLast (d k : Nat) :
    (closeLines d (k + 1)).getLast? = some '\n' := by
  rw [closeLines]
  rw [List.getLast?_append_of_ne_nil _ (by simp [chars])]
  simp [chars]

theorem stAfter_concat (st : Bool) (x : List Char) (c : Char) :
    stAfter st (x ++ [c]) = (c == '\n') := by
  rw [stAfter_append]
  simp [stAfter]

theorem closeLines_ne_nil (d k : Nat) : closeLines d (k + 1) ≠ [] := by
  intro h
  have h2 := closeLines_getLast d k
  rw [h] at h2
  simp at h2

theorem closeLines_stAfter (st : Bool) (d k : Nat) :
    stAfter st (closeLines d (k + 1)) = true :=
  stAfter_of_getLast st _ (closeLines_getLast d k)

theorem blockfmt_nested (s : List Char) (hnl : ¬ '\n' ∈ s) (hne : s ≠ []) :
    ∀ (k d : Nat), Block.fmt (nestedBlock s k) d true
      = openLines d (k + 1) ++ indentOf (d + (k + 1)) ++ s ++ chars "\n"
        ++ closeLines d (k + 1) := by
  have hA : ∀ st : Bool, stAfter st (chars "\x7b\n") = true := fun _ => rfl
  have hB : ∀ st : Bool, stAfter st (['\n'] : List Char) = true := fun _ => rfl
  have hB2 : ∀ st : Bool, stAfter st (chars "\n") = true := fun _ => rfl
  have hC : ∀ st : Bool, stAfter st (['}'] : List Char) = false := fun _ => rfl
  intro k
  induction k with
  | zero =>
      intro d
      show Block.fmt (.mk [.str s]) d true = _
      simp only [Block.fmt, Body.fmtList, Body.fmt]
      simp only [Bool.not_true, if_neg (by simp : ¬ (false = true)), stAfter_nil,
        List.nil_append, List.append_nil]
      have h1 : Formatter.write d true (chars "\x7b\n") = indentOf d ++ chars "\x7b\n" := by
        rw [show chars "\x7b\n" = ['{'] ++ chars "\n" from rfl]
        simpa [List.append_assoc] using write_line d ['{'] (by simp) (by simp)
      have h2 : Formatter.write (d + 1) true (s ++ ['\n'])
          = indentOf (d + 1) ++ s ++ ['\n'] := write_line (d + 1) s hnl hne
      rw [h1]
      simp only [stAfter_append, hA]
      rw [h2]
      simp only [stAfter_append, hA, hB]
      rw [write_one d '}' (by simp)]
      simp only [stAfter_append, hC]
      rw [show Formatter.write d false ['\n'] = ['\n'] from rfl]
      simp [openLines, closeLines, chars]
  | succ k ih =>
      intro d
      show Block.fmt (.mk [.block (nestedBlock s k)]) d true = _
      simp only [Block.fmt, Body.fmtList, Body.fmt]
      simp only [Bool.not_true, if_neg (by simp : ¬ (false = true)), stAfter_nil,
        List.nil_append, List.append_nil]
      have h1 : Formatter.write d true (chars "\x7b\n") = indentOf d ++ chars "\x7b\n" := by
        rw [show chars "\x7b\n" = ['{'] ++ chars "\n" from rfl]
        simpa [List.append_assoc] using write_line d ['{'] (by simp) (by simp)
      rw [h1]
      simp only [stAfter_append, hA]
      rw [ih (d + 1)]
      simp only [stAfter_append, hA, hB, hB2, closeLines_stAfter]
      rw [write_one d '}' (by simp)]
      simp only [stAfter_append, hC]
      rw [show Formatter.write d false ['\n'] = ['\n'] from rfl]
      have harith : (d + 1) + (k + 1) = d + (k + 1 + 1) := by omega
      rw [harith]
      simp [openLines, closeLines, chars, List.append_assoc]

theorem openLines_range : ∀ (k d : Nat), openLines d k
    = ((List.range k).map fun i => indentOf (d + i) ++ chars "\x7b\n").flatten := by
  intro k
  induction k with
  | zero => intro d; simp [openLines]
  | succ k ih =>
      intro d
      rw [openLines, List.range_succ_eq_map, ih (d + 1)]
      simp only [List.map_cons, List.flatten_cons, List.map_map]
      have hmap : List.map ((fun i => indentOf (d + i) ++ chars "\x7b\n") ∘ Nat.succ) (List.range k)
          = List.map (fun i => indentOf (d + 1 + i) ++ chars "\x7b\n") (List.range k) := by
        apply List.map_congr_left
        intro i _
        simp only [Function.comp_apply]
        have h : d + Nat.succ i = d + 1 + i := by omega
        rw [h]
      rw [hmap]
      simp [List.append_assoc]
  
theorem closeLines_range : ∀ (k d : Nat), closeLines d k
    = (((List.range k).reverse).map fun i => indentOf (d + i) ++ chars "\x7d\n").flatten := by
  intro k
  induction k with
  | zero => intro d; simp [closeLines]
  | succ k ih =>
      intro d
      rw [closeLines, List.range_succ_eq_map, ih (d + 1)]
      simp only [List.reverse_cons, List.map_append, List.map_cons, List.map_nil,
        List.flatten_append, List.flatten_cons, List.flatten_nil, List.append_nil]
      rw [← List.map_reverse]
      simp only [List.map_map]
      have hmap : List.map ((fun i => indentOf (d + i) ++ chars "\x7d\n") ∘ Nat.succ)
            ((List.range k).reverse)
          = List.map (fun i => indentOf (d + 1 + i) ++ chars "\x7d\n") ((List.range k).reverse) := by
        apply List.map_congr_left
        intro i _
        simp only [Function.comp_apply]
        have h : d + Nat.succ i = d + 1 + i := by omega
        rw [h]
      rw [hmap]
      simp [List.append_assoc]

theorem range_reverse_eq_map : ∀ (D : Nat),
    (List.range D).reverse = (List.range D).map (fun j => D - 1 - j) := by
  intro D
  induction D with
  | zero => simp
  | succ D ih =>
      conv_lhs => rw [List.range_succ, List.reverse_append]
      conv_rhs => rw [List.range_succ_eq_map]
      simp only [List.reverse_cons, List.reverse_nil, List.nil_append, List.singleton_append,
        List.map_cons, List.map_map]
      rw [show D + 1 - 1 - 0 = D from by omega]
      congr 1
      rw [ih]
      apply List.map_congr_left
      intro j _
      simp only [Function.comp_apply]
      omega

/-- Claim C7: for every nesting depth `D ≥ 1`, a content line written
inside `D` nested blocks is prefixed with exactly `4 * D` spaces, each
opening brace of the block at depth `i + 1` with `4 * i` spaces, and the
closing brace of the block at depth `D - j` with `4 * (D - 1 - j)`
spaces (so the innermost closing brace, `j = 0`, sits at `4 * (D - 1)`
spaces); the indentation prefix appears exactly at the start of the
lines begun at a positive indent level. -/
theorem c7_nested_block_indentation (D : Nat) (s : List Char)
    (hD : 1 ≤ D) (hnl : ¬ '\n' ∈ s) (hne : s ≠ []) :
    Block.fmt (nestedBlock s (D - 1)) 0 true
      = ((List.range D).map fun i => List.replicate (4 * i) ' ' ++ chars "\x7b\n").flatten
        ++ List.replicate (4 * D) ' ' ++ s ++ chars "\n"
        ++ ((List.range D).map fun j =>
              List.replicate (4 * (D - 1 - j)) ' ' ++ chars "\x7d\n").flatten := by
  obtain ⟨k, rfl⟩ : ∃ k, D = k + 1 := ⟨D - 1, by omega⟩
  simp only [Nat.add_sub_cancel]
  rw [blockfmt_nested s hnl hne k 0]
  rw [openLines_range, closeLines_range, range_reverse_eq_map]
  have h4 : ∀ i : Nat, indentOf i = List.replicate (4 * i) ' ' := by
    intro i; simp [indentOf, INDENT_WIDTH]
  simp [List.map_map, Function.comp_def, h4, List.append_assoc]

/-- Witness for C7 at depth `D = 2` with content line `ab`. -/
theorem c7_nested_block_indentation_witness :
    Block.fmt (nestedBlock (chars "ab") (2 - 1)) 0 true
      = ((List.range 2).map fun i => List.replicate (4 * i) ' ' ++ chars "\x7b\n").flatten
        ++ List.replicate (4 * 2) ' ' ++ chars "ab" ++ chars "\n"
        ++ ((List.range 2).map fun j =>
              List.replicate (4 * (2 - 1 - j)) ' ' ++ chars "\x7d\n").flatten :=
  c7_nested_block_indentation 2 (chars "ab") (by decide) (by decide) (by decide)

/-! Claims C2 and C6: import insertion. -/

theorem innerInsert_of_lookup (m : List (List Char × Import)) (ty : List Char)
    (imp imp' : Import) (h : lookupTbl m ty = some imp') :
    innerInsert m ty imp = m := by
  induction m with
  | nil => simp [lookupTbl] at h
  | cons e rest ih =>
      unfold lookupTbl at h
      unfold innerInsert
      cases he : (e.1 == ty) with
      | true => simp
      | false =>
          rw [he] at h
          simp only [Bool.false_eq_true, if_false] at h
          simp [ih h]

theorem tableInsert_of_lookup (tbl : ImportTable) (path ty : List Char) (imp : Import)
    (m : List (List Char × Import)) (imp' : Import)
    (h1 : lookupTbl tbl path = some m) (h2 : lookupTbl m ty = some imp') :
    tableInsert tbl path ty imp = tbl := by
  induction tbl with
  | nil => simp [lookupTbl] at h1
  | cons e rest ih =>
      unfold lookupTbl at h1
      unfold tableInsert
      cases he : (e.1 == path) with
      | true =>
          rw [he] at h1
          simp at h1
          subst h1
          simp [innerInsert_of_lookup e.2 ty imp imp' h2]
      | false =>
          rw [he] at h1
          simp only [Bool.false_eq_true, if_false] at h1
          simp [ih h1]

/-- Claim C2: pushing an import whose (path, normalized name) key is
already present in the import table is a no-op — the scope (table,
stored visibility of the first insertion, and hence the rendered import
section) is unchanged, and the later call's visibility argument is
discarded.  The deduplication key stored by `push_import` is the first
`::`-segment of the name, per the normalization of C6. -/
theorem c2_push_import_duplicate_noop (s : Scope) (path ty : List Char) (vis : Vis)
    (m : List (List Char × Import)) (imp : Import)
    (h1 : lookupTbl s.imports path = some m)
    (h2 : lookupTbl m (firstSeg ty) = some imp) :
    s.push_import path ty vis = s := by
  cases s with
  | mk doc imports items =>
      unfold Scope.push_import
      simp only [Scope.doc, Scope.imports, Scope.items] at h1 ⊢
      rw [tableInsert_of_lookup imports path (firstSeg ty) _ m imp h1 h2]

/-- Witness for C2: re-inserting `(bar, Bar)` with a different
visibility leaves the scope untouched. -/
theorem c2_push_import_duplicate_noop_witness :
    (Scope.new.push_import (chars "bar") (chars "Bar") Vis.Private).push_import
        (chars "bar") (chars "Bar") Vis.Pub
      = Scope.new.push_import (chars "bar") (chars "Bar") Vis.Private :=
  c2_push_import_duplicate_noop _ (chars "bar") (chars "Bar") Vis.Pub
    [(chars "Bar", (Import.new (chars "bar") (chars "Bar")).with_vis Vis.Private)]
    ((Import.new (chars "bar") (chars "Bar")).with_vis Vis.Private)
    (by decide) (by decide)

/-! Properties of first-segment normalisation and of repeated table
insertion (`src/scope.rs`, `Scope::push_import`). -/

theorem firstSeg_cons_eq (c : Char) (rest : List Char)
    (h : ∀ tail, ¬(c = ':' ∧ rest = ':' :: tail)) :
    firstSeg (c :: rest) = c :: firstSeg rest := by
  rw [firstSeg.eq_def]
  split
  · next tail heq =>
      exfalso
      have h1 : c = ':' := by injection heq with h1 h2
      have h2 : rest = ':' :: tail := by injection heq with ha hb
      exact h tail ⟨h1, h2⟩
  · next c' rest' heq =>
      injection heq with h1 h2
      rw [h1, h2]
  · next heq => simp at heq

theorem firstSeg_head (l : List Char) (d : Char) (t : List Char)
    (h : firstSeg l = d :: t) : ∃ t', l = d :: t' := by
  cases l with
  | nil => simp [firstSeg] at h
  | cons c0 r =>
      rw [firstSeg.eq_def] at h
      split at h
      · simp at h
      · next c' rest' heq =>
          injection h with h1 h2
          injection heq with h3 h4
          exact ⟨r, by rw [h3, h1]⟩
      · next heq => simp at heq

theorem firstSeg_idem (l : List Char) : firstSeg (firstSeg l) = firstSeg l := by
  induction l using firstSeg.induct with
  | case1 rest => rfl
  | case3 => rfl
  | case2 c rest h ih =>
      have hcond0 : ∀ tail, ¬(c = ':' ∧ rest = ':' :: tail) := by
        intro tail hx
        exact h tail hx.1 hx.2
      have hcond : ∀ tail, ¬(c = ':' ∧ firstSeg rest = ':' :: tail) := by
        intro tail hx
        obtain ⟨t', ht'⟩ := firstSeg_head rest ':' tail hx.2
        exact h t' hx.1 ht'
      rw [firstSeg_cons_eq c rest hcond0, firstSeg_cons_eq c (firstSeg rest) hcond, ih]

theorem innerInsert_twice (m : List (List Char × Import)) (ty : List Char) (i1 i2 : Import) :
    innerInsert (innerInsert m ty i1) ty i2 = innerInsert m ty i1 := by
  induction m with
  | nil => simp [innerInsert]
  | cons e rest ih =>
      by_cases h : e.1 == ty
      · simp [innerInsert, h]
      · simp only [innerInsert, h, Bool.false_eq_true, if_false]
        rw [ih]

theorem tableInsert_twice (tbl : ImportTable) (path ty : List Char) (i1 i2 : Import) :
    tableInsert (tableInsert tbl path ty i1) path ty i2 = tableInsert tbl path ty i1 := by
  induction tbl with
  | nil => simp [tableInsert, innerInsert]
  | cons e rest ih =>
      by_cases h : e.1 == path
      · simp [tableInsert, h, innerInsert_twice]
      · simp only [tableInsert, h, Bool.false_eq_true, if_false]
        rw [ih]

/-- C6: only the first `::`-segment of an imported name is stored and
used as the grouping key and displayed name, so normalising the name to
its first segment before pushing gives the same scope, two names sharing
a first segment under one path collapse to a single entry, and importing
`a::B` under path `p` renders as `use p::a;`. -/
theorem c6_first_segment_normalization :
    (∀ (s : Scope) (path ty : List Char) (v : Vis),
        s.push_import path ty v = s.push_import path (firstSeg ty) v)
  ∧ (∀ (s : Scope) (path t1 t2 : List Char) (v1 v2 : Vis),
        firstSeg t1 = firstSeg t2 →
        (s.push_import path t1 v1).push_import path t2 v2 = s.push_import path t1 v1)
  ∧ Scope.fmt_imports (Scope.new.push_import (chars "p") (chars "a::B") Vis.Private).imports 0 true
      = chars "use p::a;\n" := by
  refine ⟨?_, ?_, by decide⟩
  · intro s path ty v
    simp [Scope.push_import, firstSeg_idem]
  · intro s path t1 t2 v1 v2 h
    simp [Scope.push_import, ← h, tableInsert_twice, Scope.doc, Scope.imports, Scope.items]

/-- Concrete instantiation of the first-segment normalisation theorem. -/
theorem c6_first_segment_normalization_witness :
    (Scope.new.push_import (chars "p") (chars "a::B") Vis.Private
       = Scope.new.push_import (chars "p") (firstSeg (chars "a::B")) Vis.Private)
  ∧ ((Scope.new.push_import (chars "p") (chars "a::B") Vis.Private).push_import
        (chars "p") (chars "a::C") Vis.Pub
       = Scope.new.push_import (chars "p") (chars "a::B") Vis.Private) :=
  ⟨c6_first_segment_normalization.1 Scope.new (chars "p") (chars "a::B") Vis.Private,
   c6_first_segment_normalization.2.1 Scope.new (chars "p") (chars "a::B") (chars "a::C")
     Vis.Private Vis.Pub (by decide)⟩

/-- C9: pushing a module whose name already exists among the scope's
items (via `push_module` or `new_module`) panics (the assertion in
`src/scope.rs`, `Scope::push_module`); when no module of that name
exists, the module is appended as the last item and doc, imports and the
other items are unchanged. -/
theorem c9_duplicate_module_aborts :
    (∀ (s : Scope) (m : Module), (s.get_module m.name).isSome = true →
        s.push_module m = none)
  ∧ (∀ (s : Scope) (m : Module), s.get_module m.name = none →
        s.push_module m = some (Scope.mk s.doc s.imports (s.items ++ [Item.module m])))
  ∧ (∀ (s : Scope) (name : List Char), (s.get_module name).isSome = true →
        s.new_module name = none)
  ∧ (∀ (s : Scope) (name : List Char), s.get_module name = none →
        s.new_module name
          = some (Scope.mk s.doc s.imports (s.items ++ [Item.module (Module.new name)]))) := by
  refine ⟨?_, ?_, ?_, ?_⟩
  · intro s m h
    simp [Scope.push_module, h]
  · intro s m h
    simp [Scope.push_module, h]
  · intro s name h
    simp [Scope.new_module, Scope.push_module, Module.new, Module.name, h]
  · intro s name h
    simp [Scope.new_module, Scope.push_module, Module.new, Module.name, h]

/-- Concrete instantiation of the duplicate-module theorem. -/
theorem c9_duplicate_module_aborts_witness :
    (Scope.mk none [] [Item.module (Module.new (chars "m"))]).push_module
        (Module.new (chars "m")) = none
  ∧ Scope.new.push_module (Module.new (chars "m"))
      = some (Scope.mk none [] [Item.module (Module.new (chars "m"))])
  ∧ (Scope.mk none [] [Item.module (Module.new (chars "m"))]).new_module (chars "m") = none
  ∧ Scope.new.new_module (chars "m")
      = some (Scope.mk none [] [Item.module (Module.new (chars "m"))]) :=
  ⟨c9_duplicate_module_aborts.1 _ (Module.new (chars "m")) rfl,
   c9_duplicate_module_aborts.2.1 Scope.new (Module.new (chars "m")) rfl,
   c9_duplicate_module_aborts.2.2.1 _ (chars "m") rfl,
   c9_duplicate_module_aborts.2.2.2 Scope.new (chars "m") rfl⟩

/-- C8: `File::generate` returns `FileAlreadyExists` when the
destination path exists and `FileGenerationFailed` when the write to the
created file fails; but when creating the file fails, the
`if let Ok(..) && let Err(..)` chain falls through and the function
returns `Ok(())` although nothing was persisted, so a persistence
failure IS silently swallowed into an `Ok` result. -/
theorem c8_generate_swallows_create_failure :
    (∀ (f : File) (p : List Char) (cr wr : Except (List Char) Unit),
        File.generate f p true cr wr
          = some (Except.error (.FileAlreadyExists p)))
  ∧ (∀ (f : File) (p err txt : List Char),
        Scope.toText f.scope = some txt →
        File.generate f p false (.ok ()) (.error err)
          = some (Except.error (.FileGenerationFailed err)))
  ∧ (∀ (f : File) (p cerr : List Char) (wr : Except (List Char) Unit),
        File.generate f p false (.error cerr) wr = some (Except.ok ())) := by
  refine ⟨?_, ?_, ?_⟩
  · intro f p cr wr
    simp [File.generate]
  · intro f p err txt h
    simp [File.generate, h]
  · intro f p cerr wr
    simp [File.generate]

/-- Concrete instantiation of the `File::generate` theorem; the third
conjunct exhibits the swallowed creation failure. -/
theorem c8_generate_swallows_create_failure_witness :
    File.generate (File.mk (chars "f.rs") Scope.new) (chars "out/f.rs") true
        (.ok ()) (.ok ())
      = some (Except.error (.FileAlreadyExists (chars "out/f.rs")))
  ∧ File.generate (File.mk (chars "f.rs") Scope.new) (chars "out/f.rs") false
        (.ok ()) (.error (chars "disk full"))
      = some (Except.error (.FileGenerationFailed (chars "disk full")))
  ∧ File.generate (File.mk (chars "f.rs") Scope.new) (chars "out/f.rs") false
        (.error (chars "no such directory")) (.ok ())
      = some (Except.ok ()) :=
  ⟨c8_generate_swallows_create_failure.1 _ _ _ _,
   c8_generate_swallows_create_failure.2.1 _ _ _ [] rfl,
   c8_generate_swallows_create_failure.2.2 _ _ _ _⟩

/-- C4: a function with an empty body list panics when rendered as a
concrete (free or impl-level) function (`src/function.rs` line 564) but
renders as its signature followed by `;` and a newline, with no braces,
when rendered as a trait member; a function with a non-empty body
rendered concretely emits the signature followed by a brace-delimited
block holding the body. -/
theorem c4_empty_body_function :
    (∀ (f : Function) (ind : Nat) (st : Bool),
        f.body = [] → Function.fmt f false ind st = none)
  ∧ (∀ (f : Function) (ind : Nat) (st : Bool),
        f.body = [] → f.vis = Vis.Private →
        Function.fmt f true ind st
          = some (Function.fmtPre f ind st
              ++ Function.fmtCore f ind (stAfter st (Function.fmtPre f ind st))
              ++ Formatter.write ind
                   (stAfter (stAfter st (Function.fmtPre f ind st))
                     (Function.fmtCore f ind (stAfter st (Function.fmtPre f ind st))))
                   (chars ";\n")))
  ∧ (∀ (f : Function) (ind : Nat) (st : Bool),
        f.body ≠ [] →
        Function.fmt f false ind st
          = some (Function.fmtPre f ind st
              ++ Vis.fmt f.vis ind (stAfter st (Function.fmtPre f ind st))
              ++ Function.fmtCore f ind
                   (stAfter (stAfter st (Function.fmtPre f ind st))
                     (Vis.fmt f.vis ind (stAfter st (Function.fmtPre f ind st))))
              ++ Formatter.block ind (fun i s2 => Body.fmtList f.body i s2)
                   (stAfter (stAfter (stAfter st (Function.fmtPre f ind st))
                       (Vis.fmt f.vis ind (stAfter st (Function.fmtPre f ind st))))
                     (Function.fmtCore f ind
                       (stAfter (stAfter st (Function.fmtPre f ind st))
                         (Vis.fmt f.vis ind
                           (stAfter st (Function.fmtPre f ind st)))))))) := by
  refine ⟨?_, ?_, ?_⟩
  · intro f ind st h
    simp [Function.fmt, h]
  · intro f ind st h hv
    simp [Function.fmt, h, hv, stAfter]
  · intro f ind st h
    have hE : f.body.isEmpty = false := by
      cases hb : f.body
      · exact absurd hb h
      · rfl
    simp [Function.fmt, hE]

/-- Concrete instantiation of the empty-body function theorem:
`Function::new("f")` panics as a concrete function, renders as
`fn f();` as a trait member, and with a body renders a block. -/
theorem c4_empty_body_function_witness :
    Function.fmt (Function.new (chars "f")) false 0 true = none
  ∧ Function.fmt (Function.new (chars "f")) true 0 true = some (chars "fn f();\n")
  ∧ Function.fmt { Function.new (chars "f") with body := [Body.str (chars "1")] }
        false 0 true
      = some (chars "fn f() \x7b\n    1\n\x7d\n") := by
  refine ⟨c4_empty_body_function.1 _ 0 true rfl, ?_, ?_⟩
  · have h := c4_empty_body_function.2.1 (Function.new (chars "f")) 0 true rfl rfl
    rw [h]; rfl
  · have h := c4_empty_body_function.2.2
      { Function.new (chars "f") with body := [Body.str (chars "1")] } 0 true (List.cons_ne_nil _ _)
    rw [h]; rfl

/-- C10: rendering a function as a trait member requires private
visibility: `Function::fmt` with `is_trait = true` panics (the `assert!`
at `src/function.rs` line 507) whenever the visibility is not `Private`;
when it is `Private` (and the function has a body) the trait render
equals the concrete render, in particular no visibility prefix is
emitted; a concrete render always carries the stored visibility prefix
right after the doc/lint/attribute lines. -/
theorem c10_trait_function_requires_private :
    (∀ (f : Function) (ind : Nat) (st : Bool),
        f.vis ≠ Vis.Private → Function.fmt f true ind st = none)
  ∧ (∀ (f : Function) (ind : Nat) (st : Bool),
        f.vis = Vis.Private → f.body ≠ [] →
        Function.fmt f true ind st = Function.fmt f false ind st)
  ∧ (∀ (f : Function) (ind : Nat) (st : Bool) (t : List Char),
        Function.fmt f false ind st = some t →
        ∃ rest, t = Function.fmtPre f ind st
            ++ Vis.fmt f.vis ind (stAfter st (Function.fmtPre f ind st)) ++ rest) := by
  refine ⟨?_, ?_, ?_⟩
  · intro f ind st h
    have hv : (f.vis == Vis.Private) = false := by
      simp [h]
    simp [Function.fmt, hv]
  · intro f ind st hv hb
    have hE : f.body.isEmpty = false := by
      cases hb2 : f.body
      · exact absurd hb2 hb
      · rfl
    simp [Function.fmt, hv, hE, stAfter, Vis.fmt, emptyW]
  · intro f ind st t h
    by_cases hb : f.body = []
    · have hE : f.body.isEmpty = true := by rw [hb]; rfl
      simp [Function.fmt, hE] at h
    · have hE : f.body.isEmpty = false := by
        cases hb2 : f.body
        · exact absurd hb2 hb
        · rfl
      simp only [Function.fmt, hE, Bool.false_and, Bool.false_eq_true, if_false, Option.some.injEq] at h
      exact ⟨_, by rw [← h, List.append_assoc]⟩

/-- Concrete instantiation of the trait-function visibility theorem. -/
theorem c10_trait_function_requires_private_witness :
    Function.fmt { Function.new (chars "f") with vis := Vis.Pub } true 0 true = none
  ∧ (Function.fmt { Function.new (chars "f") with body := [Body.str (chars "1")] } true 0 true
      = Function.fmt { Function.new (chars "f") with body := [Body.str (chars "1")] } false 0 true)
  ∧ ∃ rest, chars "pub fn f() \x7b\n    1\n\x7d\n"
      = Function.fmtPre
          { Function.new (chars "f") with vis := Vis.Pub, body := [Body.str (chars "1")] } 0 true
        ++ Vis.fmt Vis.Pub 0
             (stAfter true (Function.fmtPre
               { Function.new (chars "f") with vis := Vis.Pub, body := [Body.str (chars "1")] }
               0 true))
        ++ rest := by
  refine ⟨c10_trait_function_requires_private.1 _ 0 true (by decide),
          c10_trait_function_requires_private.2.1 _ 0 true rfl (List.cons_ne_nil _ _), ?_⟩
  have h := c10_trait_function_requires_private.2.2
    { Function.new (chars "f") with vis := Vis.Pub, body := [Body.str (chars "1")] }
    0 true (chars "pub fn f() \x7b\n    1\n\x7d\n") rfl
  exact h

theorem seqList_cons (w : W) (ws : List W) (st : Bool) :
    seqList (w :: ws) st = w st ++ seqList ws (stAfter st (w st)) := rfl

theorem docfmt_head (l : List Char) (st : Bool) :
    (seqW (emit 0 (chars "///"))
      (seqW (if l.isEmpty then emptyW else seqW (emit 0 [' ']) (emit 0 l))
        (emit 0 (chars "\n")))) st = docLine l ++ chars "\n" := by
  by_cases hl : l = []
  · subst hl
    simp [seqW, emit, emptyW, docLine]
  · have hE : l.isEmpty = false := by simp [hl]
    simp [seqW, emit, emptyW, docLine, hE, hl, List.append_assoc]

theorem docfmt_lines (ls : List (List Char)) (st : Bool) :
    seqList (ls.map fun l =>
      seqW (emit 0 (chars "///"))
        (seqW (if l.isEmpty then emptyW else seqW (emit 0 [' ']) (emit 0 l))
          (emit 0 (chars "\n")))) st
    = (ls.map fun l => docLine l ++ chars "\n").flatten := by
  induction ls generalizing st with
  | nil => rfl
  | cons l rest ih =>
      rw [List.map_cons, seqList_cons, docfmt_head, List.map_cons, List.flatten_cons, ih]

theorem docfmt_zero (d : Doc) (st : Bool) :
    Doc.fmt d 0 st = ((rustLines d.text).map fun l => docLine l ++ chars "\n").flatten := by
  rw [Doc.fmt]
  exact docfmt_lines (rustLines d.text) st

theorem flatten_nl (ls : List (List Char)) (h : ls ≠ []) :
    (ls.map fun l => l ++ chars "\n").flatten
      = List.intercalate (chars "\n") ls ++ chars "\n" := by
  induction ls with
  | nil => exact absurd rfl h
  | cons l rest ih =>
      cases rest with
      | nil => simp [List.intercalate]
      | cons r rest2 =>
          have h2 : (r :: rest2) ≠ [] := List.cons_ne_nil _ _
          rw [List.map_cons, List.flatten_cons, ih h2]
          rw [intercalate_cons (chars "\n") l (r :: rest2)]
          rw [intercalate_cons (chars "\n") r rest2]
          simp [List.append_assoc]

/-- C5: converting a scope to text returns the render buffer with
exactly one trailing newline removed when the buffer ends in one and
unchanged otherwise (`src/scope.rs`, `impl Display for Scope`);
consequently the empty scope renders as the empty string and a scope
holding only documentation renders as exactly the `///` comment lines
with no trailing blank line. -/
theorem c5_display_trim :
    (∀ (s : Scope) (t : List Char), Scope.fmt s 0 true = some t →
        t.getLast? = some '\n' → Scope.toText s = some t.dropLast)
  ∧ (∀ (s : Scope) (t : List Char), Scope.fmt s 0 true = some t →
        ¬ t.getLast? = some '\n' → Scope.toText s = some t)
  ∧ Scope.toText Scope.new = some []
  ∧ (∀ d : Doc, Scope.toText (Scope.mk (some d) [] [])
      = some (List.intercalate (chars "\n") ((rustLines d.text).map docLine))) := by
  refine ⟨?_, ?_, rfl, ?_⟩
  · intro s t h hl
    simp [Scope.toText, h, hl]
  · intro s t h hl
    simp [Scope.toText, h, hl]
  · intro d
    have hnil1 : List.intercalate (chars "\n") ([] : List (List Char)) = [] := rfl
    have hnil2 : Scope.fmt_imports ([] : ImportTable) 0 true = [] := rfl
    have hfmt := scope_fmt_zero (some d) [] [] [] true rfl
    rw [hnil1, hnil2] at hfmt
    simp only [List.isEmpty_nil, if_true, List.append_nil] at hfmt
    rw [Scope.toText, hfmt]
    simp only [Option.map_some']
    rw [docfmt_zero]
    by_cases hls : rustLines d.text = []
    · simp [hls, hnil1]
    · have hmm : ((rustLines d.text).map fun l => docLine l ++ chars "\n")
          = (((rustLines d.text).map docLine).map fun l => l ++ chars "\n") := by
        rw [List.map_map]; rfl
      rw [hmm, flatten_nl _ (by simp [hls])]
      have hlast : (List.intercalate (chars "\n") ((rustLines d.text).map docLine)
            ++ chars "\n").getLast? = some '\n' := by
        rw [show chars "\n" = ['\n'] from rfl, List.getLast?_concat]
      have hdrop : (List.intercalate (chars "\n") ((rustLines d.text).map docLine)
            ++ chars "\n").dropLast
          = List.intercalate (chars "\n") ((rustLines d.text).map docLine) := by
        rw [show chars "\n" = ['\n'] from rfl, List.dropLast_concat]
      simp [hlast, hdrop]

/-- Concrete instantiation of the display-trim theorem: a raw item
scope loses its trailing newline, the empty scope renders empty, a
doc-only scope renders just the comment lines. -/
theorem c5_display_trim_witness :
    Scope.toText (Scope.mk none [] [Item.raw (chars "x")]) = some ((chars "x\n").dropLast)
  ∧ Scope.toText Scope.new = some []
  ∧ Scope.toText (Scope.mk (some (Doc.mk (chars "hi"))) [] [])
      = some (List.intercalate (chars "\n") ((rustLines (chars "hi")).map docLine)) :=
  ⟨c5_display_trim.1 _ (chars "x\n") rfl rfl,
   c5_display_trim.2.1 Scope.new [] rfl (by simp),
   c5_display_trim.2.2.2 (Doc.mk (chars "hi"))⟩

/-- C3 (amended): rendering a scope at top level produces the doc
comment, then the import section, then a separating newline exactly when
the import TABLE is non-empty (`src/scope.rs` line 386, `!self.imports
.is_empty()`, which is not the same as the rendered import section being
non-empty), then the item renders joined by exactly one extra newline
between consecutive items; a line-break item renders nothing, so its
sole effect is the forced separator. -/
theorem c3_item_blank_line_sequencing :
    (∀ (doc : Option Doc) (imports : ImportTable) (items : List Item)
        (ts : List (List Char)),
      itemTexts items = some ts →
      Scope.fmt (.mk doc imports items) 0 true
        = some ((match doc with | some d => Doc.fmt d 0 true | none => [])
            ++ Scope.fmt_imports imports 0 true
            ++ (if imports.isEmpty then [] else chars "\n")
            ++ List.intercalate (chars "\n") ts))
  ∧ (∀ (st : Bool), Item.fmt Item.lineBreak 0 st = some []) := by
  refine ⟨?_, fun st => rfl⟩
  intro doc imports items ts h
  exact scope_fmt_zero doc imports items ts true h

/-- Concrete instantiation of the sequencing theorem: a scope with one
imported path, a raw item, a line break and another raw item. -/
theorem c3_item_blank_line_sequencing_witness :
    Scope.fmt (.mk none [(chars "p", [])]
        [Item.raw (chars "x"), Item.lineBreak, Item.raw (chars "y")]) 0 true
      = some ([] ++ Scope.fmt_imports [(chars "p", [])] 0 true
          ++ (if ([(chars "p", [])] : ImportTable).isEmpty then [] else chars "\n")
          ++ List.intercalate (chars "\n") [chars "x\n", [], chars "y\n"])
  ∧ Item.fmt Item.lineBreak 0 true = some [] :=
  ⟨c3_item_blank_line_sequencing.1 none [(chars "p", [])]
      [Item.raw (chars "x"), Item.lineBreak, Item.raw (chars "y")]
      [chars "x\n", [], chars "y\n"] rfl,
   c3_item_blank_line_sequencing.2 true⟩

/-- The original wording of the blank-line rule fails: with a table
holding a path with no names the rendered import section is empty, yet
the rendered scope still begins with a blank line before the first item
(`set_imports` and `imports_mut` in `src/scope.rs` make such a table
reachable through the public API). -/
theorem c3_blank_line_counterexample :
    Scope.fmt_imports [(chars "p", [])] 0 true = []
  ∧ Scope.toText (Scope.mk none [(chars "p", [])] [Item.raw (chars "x")])
      = some (chars "\nx")
  ∧ Scope.toText (Scope.mk none [] [Item.raw (chars "x")]) = some (chars "x") :=
  ⟨rfl, rfl, rfl⟩

theorem emit_zero_eval (t : List Char) (st : Bool) : emit 0 t st = t := by
  simp [emit]

theorem vis_fmt_zero (v : Vis) (st : Bool) : Vis.fmt v 0 st = visText v := by
  cases v <;> simp [Vis.fmt, visText, emit, emptyW, seqW]

theorem seqList_map_flatten {α : Type} (f : α → W) (g : α → List Char)
    (h : ∀ a st, f a st = g a) (l : List α) (st : Bool) :
    seqList (l.map f) st = (l.map g).flatten := by
  induction l generalizing st with
  | nil => rfl
  | cons a rest ih =>
      rw [List.map_cons, seqList_cons, h a st, List.map_cons, List.flatten_cons, ih]

theorem joinW_zero (sep : List Char) (tys : List (List Char)) (st : Bool) :
    joinW (emit 0 sep) (tys.map (emit 0)) st = List.intercalate sep tys := by
  induction tys generalizing st with
  | nil => rfl
  | cons t rest ih =>
      cases rest with
      | nil => simp [joinW, seqList, seqW, emit, emptyW, List.intercalate]
      | cons t2 rest2 =>
          simp only [joinW, List.map_cons] at ih ⊢
          rw [List.intersperse_cons_cons, seqList_cons, seqList_cons]
          simp only [emit_zero_eval]
          rw [ih]
          simp [List.intercalate, List.intersperse_cons_cons, List.append_assoc]

theorem import_stmt_eval (v : Vis) (p : List Char) (tys : List (List Char))
    (h : tys ≠ []) (st : Bool) :
    seqW (Vis.fmt v 0)
      (seqW (emit 0 (chars "use " ++ p ++ chars "::"))
        (if tys.length > 1 then
          seqW (emit 0 (chars "\x7b"))
            (seqW (joinW (emit 0 (chars ", ")) (tys.map (emit 0)))
              (emit 0 (chars "\x7d;\n")))
        else emit 0 (tys.headD [] ++ chars ";\n"))) st
    = importStatement v p tys := by
  cases tys with
  | nil => exact absurd rfl h
  | cons t rest =>
      cases rest with
      | nil =>
          simp [seqW, emit_zero_eval, vis_fmt_zero, importStatement, List.append_assoc,
            emit]
      | cons t2 rest2 =>
          have hlen : (t :: t2 :: rest2).length > 1 := by simp
          rw [if_pos hlen]
          simp only [seqW, emit_zero_eval, vis_fmt_zero, joinW_zero]
          simp [importStatement, List.append_assoc]
          rfl

theorem filter_vis_comm (v : Vis) (l : List (List Char × Import)) :
    (l.filter fun e2 => v == e2.2.vis) = (l.filter fun e2 => e2.2.vis == v) := by
  apply List.filter_congr
  intro x _
  simp [beq_iff_eq, eq_comm]

theorem import_vis_eval (v : Vis) (imports : ImportTable) (st : Bool) :
    seqList (imports.map fun e =>
      let tys : List (List Char) := (e.2.filter fun e2 => v == e2.2.vis).map (·.1)
      if !tys.isEmpty then
        seqW (Vis.fmt v 0)
          (seqW (emit 0 (chars "use " ++ e.1 ++ chars "::"))
            (if tys.length > 1 then
              seqW (emit 0 (chars "\x7b"))
                (seqW (joinW (emit 0 (chars ", ")) (tys.map (emit 0)))
                  (emit 0 (chars "\x7d;\n")))
            else
              emit 0 (tys.headD [] ++ chars ";\n")))
      else emptyW) st
    = (imports.filterMap fun e =>
        let tys : List (List Char) := (e.2.filter fun e2 => e2.2.vis == v).map (·.1)
        if tys.isEmpty then none else some (importStatement v e.1 tys)).flatten := by
  induction imports generalizing st with
  | nil => rfl
  | cons e rest ih =>
      rw [List.map_cons, seqList_cons, List.filterMap_cons]
      simp only [← filter_vis_comm] at ih ⊢
      by_cases htys : ((e.2.filter fun e2 => v == e2.2.vis).map (·.1)).isEmpty
      · simp only [htys, Bool.not_true, Bool.false_eq_true, if_false, if_true, emptyW,
          List.nil_append]
        rw [ih]
      · have hne : ((e.2.filter fun e2 => v == e2.2.vis).map (·.1)) ≠ [] := by
          intro hx
          rw [hx] at htys
          exact htys rfl
        have hE : ((e.2.filter fun e2 => v == e2.2.vis).map (·.1)).isEmpty = false := by
          cases hx : ((e.2.filter fun e2 => v == e2.2.vis).map (·.1))
          · exact absurd hx hne
          · rfl
        simp only [hE, Bool.not_false, if_true, Bool.false_eq_true, if_false]
        rw [import_stmt_eval v e.1 _ hne, List.flatten_cons, ih]

theorem foldl_flatten_afs (ls : List (List Vis)) (acc : List Vis) :
    ls.flatten.foldl addFirstSeen acc
      = ls.foldl (fun a sub => sub.foldl addFirstSeen a) acc := by
  induction ls generalizing acc with
  | nil => rfl
  | cons l rest ih => rw [List.flatten_cons, List.foldl_append, List.foldl_cons, ih]

theorem visOrder_eq (imports : ImportTable) :
    collectVisibilities imports = specVisOrder imports := by
  rw [collectVisibilities, specVisOrder, foldl_flatten_afs, List.foldl_map]
  simp only [List.foldl_map]
  simp [addFirstSeen]

theorem addFirstSeen_nodup {acc : List Vis} (h : acc.Nodup) (v : Vis) :
    (addFirstSeen acc v).Nodup := by
  rw [addFirstSeen]
  split
  · exact h
  · next hv => simp [List.nodup_append, h, hv]

theorem foldl_afs_nodup (l : List Vis) (acc : List Vis) (h : acc.Nodup) :
    (l.foldl addFirstSeen acc).Nodup := by
  induction l generalizing acc with
  | nil => exact h
  | cons x rest ih => exact ih _ (addFirstSeen_nodup h x)

theorem mem_addFirstSeen (acc : List Vis) (x v : Vis) :
    v ∈ addFirstSeen acc x ↔ v ∈ acc ∨ v = x := by
  rw [addFirstSeen]
  split
  · next hx =>
      constructor
      · exact Or.inl
      · rintro (h | h)
        · exact h
        · subst h; exact hx
  · simp [List.mem_append]

theorem mem_foldl_afs (l : List Vis) (acc : List Vis) (v : Vis) :
    v ∈ l.foldl addFirstSeen acc ↔ v ∈ acc ∨ v ∈ l := by
  induction l generalizing acc with
  | nil => simp
  | cons x rest ih =>
      rw [List.foldl_cons, ih, mem_addFirstSeen]
      simp [List.mem_cons]
      tauto

theorem flatten_map_flatten {α : Type} (f : α → List (List Char)) (l : List α) :
    (l.map fun a => (f a).flatten).flatten = ((l.map f).flatten).flatten := by
  induction l with
  | nil => rfl
  | cons a rest ih =>
      simp only [List.map_cons, List.flatten_cons, List.flatten_append, ih]

/-- C1: the rendered import section is exactly the concatenation, over
the distinct visibilities in first-seen table-scan order, of one
use-statement per declaring path (in table insertion order) holding at
least one name of that visibility, the statement listing those names in
insertion order as `use p::n;` for one name and `use p::\x7bn1, n2, ...\x7d;`
for several; the visibility order is duplicate-free and holds exactly
the visibilities occurring in the table. -/
theorem c1_import_consolidation :
    (∀ (imports : ImportTable) (st : Bool),
        Scope.fmt_imports imports 0 st = (specImportSection imports).flatten)
  ∧ (∀ imports : ImportTable, (specVisOrder imports).Nodup)
  ∧ (∀ (imports : ImportTable) (v : Vis),
        v ∈ specVisOrder imports
          ↔ ∃ e ∈ imports, ∃ e2 ∈ e.2, e2.2.vis = v) := by
  refine ⟨?_, ?_, ?_⟩
  · intro imports st
    rw [Scope.fmt_imports]
    rw [seqList_map_flatten _
        (fun v => (imports.filterMap fun e =>
          let tys : List (List Char) := (e.2.filter fun e2 => e2.2.vis == v).map (·.1)
          if tys.isEmpty then none else some (importStatement v e.1 tys)).flatten)
        (fun v st => import_vis_eval v imports st)]
    rw [visOrder_eq, specImportSection]
    exact (flatten_map_flatten _ _).symm.symm
  · intro imports
    exact foldl_afs_nodup _ _ List.nodup_nil
  · intro imports v
    rw [specVisOrder, mem_foldl_afs]
    constructor
    · rintro (h | h)
      · simp at h
      · rcases List.mem_flatten.mp h with ⟨l, hl, hv⟩
        rcases List.mem_map.mp hl with ⟨e, he, rfl⟩
        rcases List.mem_map.mp hv with ⟨e2, he2, hvis⟩
        exact ⟨e, he, e2, he2, hvis⟩
    · rintro ⟨e, he, e2, he2, hvis⟩
      refine Or.inr (List.mem_flatten.mpr
        ⟨e.2.map fun x => x.2.vis, List.mem_map_of_mem _ he, ?_⟩)
      exact List.mem_map.mpr ⟨e2, he2, hvis⟩

end SimpleCodegen
